import Mathlib

/-!
Verification of the context-aware SRT translation pipeline.

This file gives a shallow embedding of the repository's core components:

* `src/srt_parser.py` — `SRTParser.parse`, `SRTParser._parse_block`,
  `SRTParser.reconstruct`, `ParsedSubtitle.sentences`, `create_chunks`;
* `src/translator.py` — `SubtitleTranslator.translate` and
  `SubtitleTranslator._translate_chunk`;
* `src/models.py` — `SubtitleEntry` (with its `timestamp` property) and the
  three-valued `TranslationStatus`;
* `src/services/base.py` — the `TranslationResult` outcome shape.

Python strings are modelled as `List Char`.  The Python builtins the source
relies on (`str.strip`, `str.split`, `str.join`, `str.replace`, `int`,
`re.split(r"\n\n+", ...)` and the anchored timestamp regex) are modelled over
ASCII: Python's whitespace classes and `int` additionally accept some
non-ASCII characters, which the source never produces and no claim exercises.

Asynchronous structure: `asyncio.gather` returns per-task results in task
(window-index) order regardless of completion order, so the orchestrator is
embedded as the corresponding pure fold over windows in index order; the
statistics counters mutated by the window tasks are plain commutative
increments, which the aggregation theorems treat explicitly.
-/

namespace Srt

/-- Python strings, modelled as lists of characters. -/
abbrev Str := List Char

/-- Membership of a character in Python's `str.strip()` default whitespace
class (ASCII part): space, tab, newline, carriage return, vertical tab,
form feed. -/
def isPySpace (c : Char) : Bool :=
  c = ' ' || c = '\t' || c = '\n' || c = '\r' || c = '\x0b' || c = '\x0c'

/-- Python `s.strip()` (ASCII whitespace): drop whitespace from both ends. -/
def pyStrip (s : Str) : Str :=
  ((s.dropWhile isPySpace).reverse.dropWhile isPySpace).reverse

/-- `content.replace("\r\n", "\n").replace("\r", "\n")` from
`SRTParser.parse`, fused into one left-to-right pass: the first replace
rewrites every `"\r\n"` to `"\n"`, the second rewrites every remaining
`'\r'` to `'\n'`. -/
def normalizeNewlines : Str → Str
  | [] => []
  | [c] => if c = '\r' then ['\n'] else [c]
  | c :: d :: rest =>
    if c = '\r' then
      if d = '\n' then '\n' :: normalizeNewlines rest
      else '\n' :: normalizeNewlines (d :: rest)
    else c :: normalizeNewlines (d :: rest)

/-- Python `s.split("\n")`: always nonempty, one segment more than the
number of `'\n'` occurrences, empty segments preserved. -/
def splitNl : Str → List Str
  | [] => [[]]
  | c :: rest =>
    if c = '\n' then [] :: splitNl rest
    else (splitNl rest).modifyHead (c :: ·)

/-- Python `sep.join(parts)`. -/
def joinSep (sep : Str) : List Str → Str
  | [] => []
  | [s] => s
  | s :: rest => s ++ sep ++ joinSep sep rest

/-- Python `"\n".join(parts)`. -/
def joinNl : List Str → Str := joinSep ['\n']

/-- `re.split(r"\n\n+", s)`: split on every maximal run of two or more
newlines.  `sw = true` means the scanner is inside a separator run and is
still swallowing its newlines; `acc` holds the current segment reversed. -/
def splitOB (sw : Bool) (acc : Str) : Str → List Str
  | [] => [acc.reverse]
  | c :: rest =>
    if sw = true ∧ c = '\n' then splitOB true acc rest
    else if c = '\n' ∧ rest.head? = some '\n' then
      acc.reverse :: splitOB true [] rest
    else splitOB false (c :: acc) rest

/-- `re.split(r"\n\n+", s)` as used in `SRTParser.parse`. -/
def splitBlocks (s : Str) : List Str :=
  splitOB false [] s

/-- Numeric value of an ASCII digit character. -/
def digitVal (c : Char) : Nat := c.toNat - 48

/-- Parse a nonempty all-ASCII-digit string as a natural number; `none`
otherwise.  This is the digit core of Python's `int()`. -/
def parseNatDigits (s : Str) : Option Nat :=
  if s ≠ [] ∧ s.all Char.isDigit then
    some (s.foldl (fun a c => 10 * a + digitVal c) 0)
  else none

/-- Python `int(s)` on decimal strings (ASCII model): strip whitespace,
optional sign, then a nonempty digit string; `none` models the raised
`ValueError`.  (Python also accepts underscores between digits and
non-ASCII decimal digits; the source never produces such strings.) -/
def pyInt (s : Str) : Option Int :=
  match pyStrip s with
  | [] => none
  | c :: ds =>
    if c = '-' then (parseNatDigits ds).map (fun n => -(n : Int))
    else if c = '+' then (parseNatDigits ds).map (fun n => (n : Int))
    else (parseNatDigits (c :: ds)).map (fun n => (n : Int))

/-- Decimal digits of `n`, most significant first, via fuelled structural
recursion (`fuel > n` suffices, see `natToStrAux_congr`). -/
def natToStrAux : Nat → Nat → Str
  | 0, _ => []
  | fuel + 1, n =>
    if n < 10 then [Char.ofNat (48 + n)]
    else natToStrAux fuel (n / 10) ++ [Char.ofNat (48 + n % 10)]

/-- Python `str(n)` for a natural number. -/
def natToStr (n : Nat) : Str := natToStrAux (n + 1) n

/-- Python `str(i)` for an integer, as used by the f-string
`f"{entry.index}\n..."` in `SRTParser.reconstruct`. -/
def intToStr (i : Int) : Str :=
  if i < 0 then '-' :: natToStr i.natAbs else natToStr i.toNat

/-- Match the timestamp group `\d{2}:\d{2}:\d{2}[,\.]\d{3}` at the head of
the input; on success return the twelve matched characters and the rest.
The regex piece is fixed-length, so this recursive descent is exact. -/
def matchTsGroup : Str → Option (Str × Str)
  | a :: b :: s1 :: c :: d :: s2 :: e :: f :: sep :: x :: y :: z :: rest =>
    if a.isDigit && b.isDigit && s1 = ':' && c.isDigit && d.isDigit &&
       s2 = ':' && e.isDigit && f.isDigit && (sep = ',' || sep = '.') &&
       x.isDigit && y.isDigit && z.isDigit then
      some ([a, b, s1, c, d, s2, e, f, sep, x, y, z], rest)
    else none
  | _ => none

/-- Python's regex `\s` class (ASCII part), used by the `\s*` around the
arrow in `TIMESTAMP_PATTERN`. -/
def isRegexSpace (c : Char) : Bool :=
  c = ' ' || c = '\t' || c = '\n' || c = '\r' || c = '\x0b' || c = '\x0c'

/-- `TIMESTAMP_PATTERN.match(s)` for
`(\d{2}:...\d{3})\s*-->\s*(\d{2}:...\d{3})`: anchored at the start, trailing
characters ignored, returns the two captured groups.  `\s*` is greedy, and
since `-` is not in `\s` the scan never needs to backtrack. -/
def tsMatch (s : Str) : Option (Str × Str) :=
  (matchTsGroup s).bind (fun p =>
    match p.2.dropWhile isRegexSpace with
    | '-' :: '-' :: '>' :: r3 =>
      (matchTsGroup (r3.dropWhile isRegexSpace)).map (fun q => (p.1, q.1))
    | _ => none)

/-- `SubtitleEntry` from `src/models.py`: display index, the two verbatim
timestamp strings, and the (possibly multi-line) text. -/
structure SubtitleEntry where
  index : Int
  start_time : Str
  end_time : Str
  text : Str
deriving DecidableEq, Repr

/-- The `timestamp` property of `SubtitleEntry`:
`f"{self.start_time} --> {self.end_time}"`. -/
def SubtitleEntry.timestamp (e : SubtitleEntry) : Str :=
  e.start_time ++ (" --> ".data) ++ e.end_time

/-- `ParsedSubtitle` from `src/srt_parser.py`: entries plus the
`(entry_index, line_index)` sentence map. -/
structure ParsedSubtitle where
  entries : List SubtitleEntry
  sentence_map : List (Nat × Nat)
deriving DecidableEq, Repr

/-- The `sentences` property: flatten every entry's text on newlines. -/
def ParsedSubtitle.sentences (p : ParsedSubtitle) : List Str :=
  p.entries.flatMap (fun e => splitNl e.text)

/-- The sentence-map construction loop of `SRTParser.parse`: for each
accepted entry, one `(entry_index, line_index)` pair per line of its text. -/
def buildMap (entries : List SubtitleEntry) : List (Nat × Nat) :=
  entries.enum.flatMap
    (fun p => (List.range (splitNl p.2.text).length).map (fun j => (p.1, j)))

/-- `SRTParser._parse_block`: strip and split the block; require at least
three lines; line 1 must parse as an integer (`ValueError` is caught and
yields `None`, i.e. the block is dropped); line 2 must match the timestamp
pattern; the remaining lines joined and stripped become the text. -/
def parseBlock (block : Str) : Option SubtitleEntry :=
  match splitNl (pyStrip block) with
  | l0 :: l1 :: l2 :: rest =>
    (pyInt (pyStrip l0)).bind (fun index =>
      (tsMatch (pyStrip l1)).map (fun q =>
        { index := index, start_time := q.1, end_time := q.2,
          text := pyStrip (joinNl (l2 :: rest)) }))
  | _ => none

/-- The block list `SRTParser.parse` iterates over: normalize line endings,
strip, split on blank-line runs. -/
def blocksOf (content : Str) : List Str :=
  splitBlocks (pyStrip (normalizeNewlines content))

/-- `SRTParser.parse`. -/
def parse (content : Str) : ParsedSubtitle :=
  let entries := (blocksOf content).filterMap parseBlock
  { entries := entries, sentence_map := buildMap entries }

/-- The `entry_texts[entry_idx]` list built by `SRTParser.reconstruct`:
translated sentences delivered to entry `i`, in sentence order.  The
`if i < len(translated_sentences)` guard is the `zip` truncation. -/
def entryLines (p : ParsedSubtitle) (translated : List Str) (i : Nat) :
    List Str :=
  (p.sentence_map.zip translated).filterMap
    (fun q => if q.1.1 = i then some q.2 else none)

/-- The `output_blocks` loop of `SRTParser.reconstruct`: an entry with at
least one delivered sentence gets those sentences joined; an entry with
none keeps its original text. -/
def reconstructBlocks (p : ParsedSubtitle) (translated : List Str) :
    List Str :=
  p.entries.enum.map (fun q =>
    intToStr q.2.index ++ '\n' :: q.2.timestamp ++ '\n' ::
      (if (entryLines p translated q.1).isEmpty then q.2.text
       else joinNl (entryLines p translated q.1)))

/-- `SRTParser.reconstruct`: blocks joined by one blank line. -/
def reconstruct (p : ParsedSubtitle) (translated : List Str) : Str :=
  joinSep ['\n', '\n'] (reconstructBlocks p translated)

/-- `create_chunks` body with chunk size `k + 1`, fuelled by the list
length so that the definition is structurally recursive
(`fuel ≥ length` suffices, see `chunkByAux_congr`). -/
def chunkByAux (k : Nat) : Nat → List Str → List (List Str)
  | _, [] => []
  | 0, _ :: _ => []
  | fuel + 1, s :: rest => (s :: rest.take k) :: chunkByAux k fuel (rest.drop k)

/-- `sentences[i : i + chunk_size]` slices for `i = 0, k+1, 2(k+1), ...`. -/
def chunkBy (k : Nat) (l : List Str) : List (List Str) :=
  chunkByAux k l.length l

/-- `create_chunks(sentences, chunk_size)` materialised by
`list(...)` in the orchestrator: chunk size `0` models the `ValueError`
raised by `range(0, len, 0)`. -/
def create_chunks (sentences : List Str) (chunk_size : Nat) :
    Except Str (List (List Str)) :=
  match chunk_size with
  | 0 => .error ("range() arg 3 must not be zero".data)
  | k + 1 => .ok (chunkBy k sentences)

/-- `TranslationStatus` from `src/models.py`.  `partial_` renders Python's
`PARTIAL = "partial"` (`partial` is a Lean keyword). -/
inductive TranslationStatus where
  | success
  | partial_
  | failure
deriving DecidableEq, Repr

/-- `TranslationResult` from `src/services/base.py`: a backend call either
succeeds with an ordered list of translated strings or fails with a reason.
`service_used` is carried but never read by the orchestrator. -/
structure TranslationResult where
  translated_texts : List Str
  success : Bool
  error : Option Str := none
  service_used : Str := "unknown".data
deriving DecidableEq, Repr

/-- A translation backend, as the orchestrator sees it: the language pair is
fixed for the job, so a backend is a function from the unit list to a
`TranslationResult`.  (Both concrete services catch their own exceptions
and report them as `success = False`.) -/
abbrev Backend := List Str → TranslationResult

/-- Which backend a call in the trace went to. -/
inductive WhichService where
  | primaryService
  | fallbackService
deriving DecidableEq, Repr

/-- Python `str(x)` for `Optional[str]`, as interpolated into the
`RuntimeError` message: `None` prints as `"None"`. -/
def optErrStr : Option Str → Str
  | none => "None".data
  | some s => s

/-- Outcome of `SubtitleTranslator._translate_chunk` for one window:
`result` is `.ok` with the translated units, or `.error` with the
`RuntimeError` message when both backends failed; `openai_inc` /
`deepl_inc` are the per-call counter increments applied to the shared
stats; `calls` is the trace of backend invocations with the exact argument
passed to each. -/
structure ChunkOutcome where
  result : Except Str (List Str)
  openai_inc : Nat
  deepl_inc : Nat
  calls : List (WhichService × List Str)
deriving Repr

/-- `SubtitleTranslator._translate_chunk`: try the primary backend with the
window's units; on success count one primary call and return its texts.
Otherwise call the fallback backend with the same original units; on
success count one fallback call and return its texts.  If both failed,
raise `RuntimeError` carrying both reasons (captured by
`asyncio.gather(..., return_exceptions=True)` at the job level). -/
def translateChunk (primary fallback : Backend) (chunk : List Str) :
    ChunkOutcome :=
  if (primary chunk).success then
    { result := .ok (primary chunk).translated_texts,
      openai_inc := 1, deepl_inc := 0,
      calls := [(.primaryService, chunk)] }
  else if (fallback chunk).success then
    { result := .ok (fallback chunk).translated_texts,
      openai_inc := 0, deepl_inc := 1,
      calls := [(.primaryService, chunk), (.fallbackService, chunk)] }
  else
    { result := .error ("Translation failed: ".data ++
        optErrStr (primary chunk).error ++ " / ".data ++
        optErrStr (fallback chunk).error),
      openai_inc := 0, deepl_inc := 0,
      calls := [(.primaryService, chunk), (.fallbackService, chunk)] }

/-- The placeholder substituted for every unit of a terminally failed
window. -/
def translationErrorStr : Str := "[Translation Error]".data

/-- The flatten-and-account loop of `SubtitleTranslator.translate` over the
settled window results (in window-index order, as returned by
`asyncio.gather`): accumulate the flat unit list, the translated-unit
count, and the failed-unit count. -/
def aggregateLoop (acc : List Str) (translated failed : Nat) :
    List (List Str × Except Str (List Str)) → List Str × Nat × Nat
  | [] => (acc, translated, failed)
  | (chunk, r) :: rest =>
    match r with
    | .error _ =>
      aggregateLoop (acc ++ List.replicate chunk.length translationErrorStr)
        translated (failed + chunk.length) rest
    | .ok ts => aggregateLoop (acc ++ ts) (translated + ts.length) failed rest

/-- `TranslationStats` from `src/translator.py` (wall-clock
`elapsed_seconds` is I/O and is not modelled). -/
structure TranslationStats where
  total_sentences : Nat := 0
  translated_sentences : Nat := 0
  failed_sentences : Nat := 0
  openai_calls : Nat := 0
  deepl_calls : Nat := 0
deriving DecidableEq, Repr

/-- `TranslationJob` from `src/translator.py`. -/
structure TranslationJob where
  translated_content : Str
  status : TranslationStatus
  stats : TranslationStats
  error : Option Str := none
deriving DecidableEq, Repr

/-- The per-window settled unit list: placeholders for a failed window,
the backend's texts for a successful one. -/
def chunkUnits (primary fallback : Backend) (chunk : List Str) : List Str :=
  match (translateChunk primary fallback chunk).result with
  | .error _ => List.replicate chunk.length translationErrorStr
  | .ok ts => ts

/-- The translated-unit counter increment contributed by one window. -/
def chunkTransInc (primary fallback : Backend) (chunk : List Str) : Nat :=
  match (translateChunk primary fallback chunk).result with
  | .error _ => 0
  | .ok ts => ts.length

/-- The failed-unit counter increment contributed by one window. -/
def chunkFailInc (primary fallback : Backend) (chunk : List Str) : Nat :=
  match (translateChunk primary fallback chunk).result with
  | .error _ => chunk.length
  | .ok _ => 0

/-- `SubtitleTranslator.translate`: parse, window, translate each window
with fallback (results in window-index order), flatten with placeholder
substitution and accounting, reconstruct, and compute the final status.
The `except Exception` at the job boundary catches the `ValueError` raised
by `range(0, len, 0)` when the configured window size is zero — the one
fallible step of the pipeline — and returns a `failure` job instead of
propagating. -/
def translate (primary fallback : Backend) (context_window_size : Nat)
    (srt_content : Str) : TranslationJob :=
  let parsed := parse srt_content
  let sentences := parsed.sentences
  match create_chunks sentences context_window_size with
  | .error e =>
    { translated_content := [], status := .failure,
      stats := { total_sentences := sentences.length }, error := some e }
  | .ok chunks =>
    let outcomes := chunks.map (translateChunk primary fallback)
    let agg := aggregateLoop [] 0 0
      (chunks.zip (outcomes.map (fun o => o.result)))
    let translated_content := reconstruct parsed agg.1
    let stats : TranslationStats :=
      { total_sentences := sentences.length,
        translated_sentences := agg.2.1,
        failed_sentences := agg.2.2,
        openai_calls := (outcomes.map (fun o => o.openai_inc)).sum,
        deepl_calls := (outcomes.map (fun o => o.deepl_inc)).sum }
    let status : TranslationStatus :=
      if stats.failed_sentences = 0 then .success
      else if stats.translated_sentences > 0 then .partial_
      else .failure
    { translated_content := translated_content, status := status,
      stats := stats, error := none }

/-! ### Character-class facts -/

theorem isPySpace_cases (c : Char) (h : isPySpace c = true) :
    (((c = ' ' ∨ c = '\t') ∨ c = '\n') ∨ c = '\r') ∨ c = '\x0b' ∨ c = '\x0c' := by
  simpa [isPySpace, or_assoc] using h

theorem isRegexSpace_cases (c : Char) (h : isRegexSpace c = true) :
    (((c = ' ' ∨ c = '\t') ∨ c = '\n') ∨ c = '\r') ∨ c = '\x0b' ∨ c = '\x0c' := by
  simpa [isRegexSpace, or_assoc] using h

theorem isDigit_not_pySpace (c : Char) (h : c.isDigit = true) :
    isPySpace c = false := by
  by_contra hs
  rcases isPySpace_cases c (by simpa using hs) with (((rfl | rfl) | rfl) | rfl) | rfl | rfl <;>
    exact absurd h (by decide)

theorem isDigit_not_regexSpace (c : Char) (h : c.isDigit = true) :
    isRegexSpace c = false := by
  by_contra hs
  rcases isRegexSpace_cases c (by simpa using hs) with (((rfl | rfl) | rfl) | rfl) | rfl | rfl <;>
    exact absurd h (by decide)

theorem isDigit_ne_nl (c : Char) (h : c.isDigit = true) : c ≠ '\n' := by
  rintro rfl; exact absurd h (by decide)

theorem isDigit_ne_cr (c : Char) (h : c.isDigit = true) : c ≠ '\r' := by
  rintro rfl; exact absurd h (by decide)

/-- The ten ASCII digit characters: classification facts, by evaluation. -/
theorem digitChar_facts : ∀ d < 10,
    (Char.ofNat (48 + d)).isDigit = true ∧
    digitVal (Char.ofNat (48 + d)) = d ∧
    Char.ofNat (48 + d) ≠ '-' ∧ Char.ofNat (48 + d) ≠ '+' := by decide

/-! ### Integer printing and parsing -/

theorem natToStrAux_spec : ∀ fuel n, n < fuel →
    natToStrAux fuel n ≠ [] ∧
    (∀ c ∈ natToStrAux fuel n, c.isDigit = true) ∧
    (natToStrAux fuel n).foldl (fun a c => 10 * a + digitVal c) 0 = n := by
  intro fuel
  induction fuel with
  | zero => intro n hn; omega
  | succ fuel ih =>
    intro n hn
    by_cases h10 : n < 10
    · refine ⟨by simp [natToStrAux, h10], ?_, ?_⟩
      · intro c hc
        simp [natToStrAux, h10] at hc
        subst hc
        exact (digitChar_facts n h10).1
      · simp [natToStrAux, h10, (digitChar_facts n h10).2.1]
    · have hdiv : n / 10 < n := Nat.div_lt_self (by omega) (by omega)
      have hfuel : n / 10 < fuel := by omega
      obtain ⟨hne, hdig, hval⟩ := ih (n / 10) hfuel
      have hmod : n % 10 < 10 := Nat.mod_lt _ (by omega)
      refine ⟨by simp [natToStrAux, h10], ?_, ?_⟩
      · intro c hc
        simp only [natToStrAux, if_neg h10, List.mem_append,
          List.mem_singleton] at hc
        rcases hc with hc | hc
        · exact hdig c hc
        · subst hc; exact (digitChar_facts _ hmod).1
      · simp only [natToStrAux, if_neg h10, List.foldl_append, hval,
          List.foldl_cons, List.foldl_nil, (digitChar_facts _ hmod).2.1]
        omega

theorem natToStr_ne_nil (n : Nat) : natToStr n ≠ [] :=
  (natToStrAux_spec (n + 1) n (Nat.lt_succ_self n)).1

theorem natToStr_all_digit (n : Nat) : ∀ c ∈ natToStr n, c.isDigit = true :=
  (natToStrAux_spec (n + 1) n (Nat.lt_succ_self n)).2.1

/-- Digit strings contain no Python whitespace, so `strip` is a no-op. -/
theorem pyStrip_of_no_space (s : Str)
    (h : ∀ c ∈ s, isPySpace c = false) : pyStrip s = s := by
  have h1 : s.dropWhile isPySpace = s := by
    cases s with
    | nil => rfl
    | cons c r => simp [List.dropWhile_cons, h c (by simp)]
  have h2 : s.reverse.dropWhile isPySpace = s.reverse := by
    cases hr : s.reverse with
    | nil => rfl
    | cons c r =>
      have hc : c ∈ s := by
        have : c ∈ s.reverse := by rw [hr]; simp
        simpa using this
      simp [List.dropWhile_cons, h c hc]
  simp [pyStrip, h1, h2]

theorem parseNatDigits_natToStr (n : Nat) :
    parseNatDigits (natToStr n) = some n := by
  obtain ⟨hne, hdig, hval⟩ := natToStrAux_spec (n + 1) n (Nat.lt_succ_self n)
  simp only [parseNatDigits, natToStr] at *
  rw [if_pos]
  · exact congrArg some hval
  · exact ⟨hne, by simpa [List.all_eq_true] using hdig⟩

theorem natToStr_head_not_sign (n : Nat) :
    ∀ c r, natToStr n = c :: r → c ≠ '-' ∧ c ≠ '+' := by
  intro c r h
  have hc : c ∈ natToStr n := by rw [h]; simp
  have hd := natToStr_all_digit n c hc
  constructor
  · rintro rfl; exact absurd hd (by decide)
  · rintro rfl; exact absurd hd (by decide)

theorem pyInt_natToStr (n : Nat) : pyInt (natToStr n) = some (n : Int) := by
  have hstrip : pyStrip (natToStr n) = natToStr n :=
    pyStrip_of_no_space _ (fun c hc => isDigit_not_pySpace c (natToStr_all_digit n c hc))
  unfold pyInt
  rw [hstrip]
  cases hns : natToStr n with
  | nil => exact absurd hns (natToStr_ne_nil n)
  | cons c r =>
    obtain ⟨hm, hp⟩ := natToStr_head_not_sign n c r hns
    have hv := parseNatDigits_natToStr n
    rw [hns] at hv
    simp [hm, hp, hv]

theorem pyInt_intToStr (i : Int) : pyInt (intToStr i) = some i := by
  rcases lt_or_le i 0 with hneg | hpos
  · have habs : ((i.natAbs : Int)) = -i := Int.ofNat_natAbs_of_nonpos (le_of_lt hneg)
    have hstrip : pyStrip ('-' :: natToStr i.natAbs) = '-' :: natToStr i.natAbs := by
      apply pyStrip_of_no_space
      intro c hc
      rcases List.mem_cons.mp hc with rfl | hc
      · decide
      · exact isDigit_not_pySpace c (natToStr_all_digit _ c hc)
    simp only [intToStr, if_pos hneg]
    unfold pyInt
    rw [hstrip]
    simp [parseNatDigits_natToStr, habs]
  · have : i.toNat = i := Int.toNat_of_nonneg hpos
    simp only [intToStr, if_neg (not_lt.mpr hpos)]
    rw [pyInt_natToStr, this]

/-! ### Splitting on newlines and joining back -/

theorem splitNl_ne_nil (s : Str) : splitNl s ≠ [] := by
  induction s with
  | nil => simp [splitNl]
  | cons c r ih =>
    by_cases h : c = '\n'
    · simp [splitNl, h]
    · simp only [splitNl, if_neg h]
      cases hr : splitNl r with
      | nil => exact absurd hr ih
      | cons a t => simp [List.modifyHead]

theorem joinSep_cons (sep : Str) (s : Str) (rest : List Str)
    (h : rest ≠ []) : joinSep sep (s :: rest) = s ++ sep ++ joinSep sep rest := by
  cases rest with
  | nil => exact absurd rfl h
  | cons t r => rfl

theorem joinNl_splitNl (s : Str) : joinNl (splitNl s) = s := by
  induction s with
  | nil => rfl
  | cons c r ih =>
    by_cases h : c = '\n'
    · subst h
      have hsplit : splitNl ('\n' :: r) = [] :: splitNl r := by simp [splitNl]
      rw [hsplit, joinNl, joinSep_cons _ _ _ (splitNl_ne_nil r)]
      simpa [joinNl] using ih
    · simp only [splitNl, if_neg h]
      cases hr : splitNl r with
      | nil => exact absurd hr (splitNl_ne_nil r)
      | cons a t =>
        rw [hr] at ih
        cases t with
        | nil => simpa [List.modifyHead, joinNl, joinSep] using congrArg (c :: ·) ih
        | cons b u =>
          rw [joinNl, joinSep_cons _ _ _ (by simp)] at ih
          simp only [List.modifyHead, joinNl, joinSep_cons _ _ _ (by simp : b :: u ≠ [])]
          rw [← ih]
          simp

theorem splitNl_no_nl (s : Str) : ∀ l ∈ splitNl s, '\n' ∉ l := by
  induction s with
  | nil => simp [splitNl]
  | cons c r ih =>
    by_cases h : c = '\n'
    · simp only [splitNl, if_pos h]
      intro l hl
      rcases List.mem_cons.mp hl with rfl | hl
      · simp
      · exact ih l hl
    · simp only [splitNl, if_neg h]
      cases hr : splitNl r with
      | nil => exact absurd hr (splitNl_ne_nil r)
      | cons a t =>
        intro l hl
        rcases List.mem_cons.mp hl with rfl | hl
        · intro hmem
          rcases List.mem_cons.mp hmem with hce | hmem
          · exact h hce.symm
          · exact ih a (by rw [hr]; simp) hmem
        · exact ih l (by rw [hr]; simp [hl])

theorem splitNl_length (s : Str) : (splitNl s).length = s.count '\n' + 1 := by
  induction s with
  | nil => simp [splitNl]
  | cons c r ih =>
    by_cases h : c = '\n'
    · subst h; simp [splitNl, ih, List.count_cons]
    · simp [splitNl, if_neg h, List.count_cons, Ne.symm h, ih]

theorem splitNl_of_no_nl (s : Str) (h : '\n' ∉ s) : splitNl s = [s] := by
  induction s with
  | nil => rfl
  | cons c r ih =>
    have hc : c ≠ '\n' := fun hc => h (by simp [hc])
    have hr : '\n' ∉ r := fun hr => h (by simp [hr])
    simp [splitNl, if_neg hc, ih hr, List.modifyHead]

theorem splitNl_append_nl (a b : Str) (h : '\n' ∉ a) :
    splitNl (a ++ '\n' :: b) = a :: splitNl b := by
  induction a with
  | nil => simp [splitNl]
  | cons c a' ih =>
    have hc : c ≠ '\n' := fun hc => h (by simp [hc])
    have ha : '\n' ∉ a' := fun ha => h (by simp [ha])
    have h2 := ih ha
    simp only [List.cons_append, splitNl, if_neg hc, List.append_eq, h2,
      List.modifyHead]

/-! ### Properties of `pyStrip` -/

theorem head?_dropWhile (p : Char → Bool) (l : Str) :
    ∀ c, (l.dropWhile p).head? = some c → p c = false := by
  induction l with
  | nil => simp [List.dropWhile]
  | cons a r ih =>
    intro c hc
    by_cases h : p a
    · rw [List.dropWhile_cons_of_pos h] at hc
      exact ih c hc
    · rw [List.dropWhile_cons_of_neg h] at hc
      simp at hc
      subst hc
      simpa using h

theorem dropWhile_eq_self_of_head (p : Char → Bool) (l : Str)
    (h : ∀ c, l.head? = some c → p c = false) : l.dropWhile p = l := by
  cases l with
  | nil => rfl
  | cons a r => exact List.dropWhile_cons_of_neg (by simp [h a rfl])

theorem pyStrip_eq_self (s : Str)
    (h1 : ∀ c, s.head? = some c → isPySpace c = false)
    (h2 : ∀ c, s.getLast? = some c → isPySpace c = false) : pyStrip s = s := by
  unfold pyStrip
  rw [dropWhile_eq_self_of_head _ _ h1,
    dropWhile_eq_self_of_head _ _ (by simpa using h2), List.reverse_reverse]

theorem dropWhile_getLast? (p : Char → Bool) (l : Str)
    (h : l.dropWhile p ≠ []) : (l.dropWhile p).getLast? = l.getLast? := by
  obtain ⟨t, ht⟩ := List.dropWhile_suffix (l := l) p
  conv_rhs => rw [← ht]
  exact (List.getLast?_append_of_ne_nil t h).symm

theorem dropWhile_subset (p : Char → Bool) (l : Str) :
    ∀ c ∈ l.dropWhile p, c ∈ l := by
  intro c hc
  exact (List.dropWhile_suffix (l := l) p).subset hc

theorem pyStrip_subset (s : Str) : ∀ c ∈ pyStrip s, c ∈ s := by
  intro c hc
  unfold pyStrip at hc
  rw [List.mem_reverse] at hc
  have := dropWhile_subset _ _ _ hc
  rw [List.mem_reverse] at this
  exact dropWhile_subset _ _ _ this

theorem pyStrip_head? (s : Str) :
    ∀ c, (pyStrip s).head? = some c → isPySpace c = false := by
  intro c hc
  unfold pyStrip at hc
  rw [List.head?_reverse] at hc
  have hne : (s.dropWhile isPySpace).reverse.dropWhile isPySpace ≠ [] := by
    intro h; rw [h] at hc; simp at hc
  rw [dropWhile_getLast? _ _ hne] at hc
  rw [List.getLast?_reverse] at hc
  exact head?_dropWhile _ _ c hc

theorem pyStrip_getLast? (s : Str) :
    ∀ c, (pyStrip s).getLast? = some c → isPySpace c = false := by
  intro c hc
  unfold pyStrip at hc
  rw [List.getLast?_reverse] at hc
  exact head?_dropWhile _ _ c hc

theorem pyStrip_idem (s : Str) : pyStrip (pyStrip s) = pyStrip s :=
  pyStrip_eq_self _ (pyStrip_head? s) (pyStrip_getLast? s)

theorem pyStrip_ne_nil (s : Str) (c : Char) (hc : s.getLast? = some c)
    (hns : isPySpace c = false) : pyStrip s ≠ [] := by
  have hdne : s.dropWhile isPySpace ≠ [] := by
    intro h
    rw [List.dropWhile_eq_nil_iff] at h
    have hcs : c ∈ s := by
      obtain ⟨hne, hx⟩ := List.mem_getLast?_eq_getLast (l := s) (x := c) (by simp [hc])
      rw [hx]
      exact List.getLast_mem hne
    rw [h c hcs] at hns
    exact absurd hns (by simp)
  have hlast : (s.dropWhile isPySpace).getLast? = some c := by
    rw [dropWhile_getLast? _ _ hdne]; exact hc
  have hrev : (s.dropWhile isPySpace).reverse.head? = some c := by
    rw [List.head?_reverse]; exact hlast
  unfold pyStrip
  intro h
  rw [List.reverse_eq_nil_iff] at h
  rw [dropWhile_eq_self_of_head _ _ (fun d hd => by
    rw [hrev] at hd
    injection hd with hd
    subst hd
    exact hns)] at h
  rw [List.reverse_eq_nil_iff] at h
  exact hdne h

/-! ### Absence of blank lines inside a segment -/

/-- `noDoubleNl s` holds when `s` has no two consecutive newline
characters, i.e. contains no blank-line separator. -/
def noDoubleNl : Str → Bool
  | [] => true
  | [_] => true
  | a :: b :: r => !(a = '\n' && b = '\n') && noDoubleNl (b :: r)

theorem noDoubleNl_cons (c : Char) (l : Str)
    (h : noDoubleNl (c :: l) = true) : noDoubleNl l = true := by
  cases l with
  | nil => rfl
  | cons d r =>
    rw [noDoubleNl, Bool.and_eq_true] at h
    exact h.2

theorem noDoubleNl_pair (a b : Char) (r : Str)
    (h : noDoubleNl (a :: b :: r) = true) : ¬(a = '\n' ∧ b = '\n') := by
  rw [noDoubleNl, Bool.and_eq_true] at h
  intro hab
  simp [hab.1, hab.2] at h

theorem noDoubleNl_append_right (a b : Str)
    (h : noDoubleNl (a ++ b) = true) : noDoubleNl b = true := by
  induction a with
  | nil => simpa using h
  | cons x a' ih =>
    rw [List.cons_append] at h
    exact ih (noDoubleNl_cons _ _ h)

theorem noDoubleNl_append_left (a b : Str)
    (h : noDoubleNl (a ++ b) = true) : noDoubleNl a = true := by
  induction a with
  | nil => rfl
  | cons x a' ih =>
    cases a' with
    | nil => rfl
    | cons y a'' =>
      rw [List.cons_append, List.cons_append] at h
      have hp := noDoubleNl_pair _ _ _ h
      have h2 := ih (by rw [List.cons_append]; exact noDoubleNl_cons _ _ h)
      rw [noDoubleNl, Bool.and_eq_true]
      refine ⟨?_, h2⟩
      by_contra hx
      simp only [Bool.not_eq_true', Bool.not_eq_false] at hx
      rw [Bool.and_eq_true] at hx
      exact hp ⟨by simpa using hx.1, by simpa using hx.2⟩

theorem noDoubleNl_within (t s : Str) (hts : t <:+: s)
    (h : noDoubleNl s = true) : noDoubleNl t = true := by
  obtain ⟨u, v, huv⟩ := hts
  subst huv
  have h' : noDoubleNl (u ++ (t ++ v)) = true := by rwa [← List.append_assoc]
  exact noDoubleNl_append_left _ _ (noDoubleNl_append_right _ _ h')

theorem noDoubleNl_append (a b : Str) (ha : noDoubleNl a = true)
    (hb : noDoubleNl b = true)
    (hab : ∀ x y, a.getLast? = some x → b.head? = some y →
      ¬(x = '\n' ∧ y = '\n')) :
    noDoubleNl (a ++ b) = true := by
  induction a with
  | nil => simpa using hb
  | cons x a' ih =>
    cases a' with
    | nil =>
      cases b with
      | nil => rfl
      | cons y b' =>
        rw [List.singleton_append, noDoubleNl, Bool.and_eq_true]
        refine ⟨?_, hb⟩
        have := hab x y rfl rfl
        by_contra hx
        simp only [Bool.not_eq_true', Bool.not_eq_false, Bool.and_eq_true] at hx
        exact this ⟨by simpa using hx.1, by simpa using hx.2⟩
    | cons z a'' =>
      rw [List.cons_append, List.cons_append, noDoubleNl, Bool.and_eq_true]
      constructor
      · have hp := noDoubleNl_pair x z a'' ha
        by_contra hx
        simp only [Bool.not_eq_true', Bool.not_eq_false, Bool.and_eq_true] at hx
        exact hp ⟨by simpa using hx.1, by simpa using hx.2⟩
      · rw [← List.cons_append]
        exact ih (noDoubleNl_cons _ _ ha)
          (fun u v hu hv => hab u v (by rwa [List.getLast?_cons_cons]) hv)

theorem pyStrip_within (s : Str) : pyStrip s <:+: s := by
  have hA : s.dropWhile isPySpace <:+ s := List.dropWhile_suffix _
  have hB : (s.dropWhile isPySpace).reverse.dropWhile isPySpace <:+
      (s.dropWhile isPySpace).reverse := List.dropWhile_suffix _
  have hpre : pyStrip s <+: s.dropWhile isPySpace := by
    rw [← List.reverse_suffix]
    simpa [pyStrip] using hB
  exact hpre.isInfix.trans hA.isInfix

theorem noDoubleNl_pyStrip (s : Str) (h : noDoubleNl s = true) :
    noDoubleNl (pyStrip s) = true :=
  noDoubleNl_within _ _ (pyStrip_within s) h

/-! ### Invariants of the blank-line splitter -/

theorem splitOB_noDoubleNl : ∀ (s : Str) (sw : Bool) (acc : Str),
    (sw = true → acc = []) →
    noDoubleNl acc.reverse = true →
    (acc.head? = some '\n' → s.head? ≠ some '\n') →
    ∀ seg ∈ splitOB sw acc s, noDoubleNl seg = true := by
  intro s
  induction s with
  | nil =>
    intro sw acc _ hacc _ seg hseg
    simp only [splitOB, List.mem_singleton] at hseg
    subst hseg
    exact hacc
  | cons c rest ih =>
    intro sw acc hsw hacc hhd seg hseg
    rw [splitOB] at hseg
    by_cases h1 : sw = true ∧ c = '\n'
    · rw [if_pos h1] at hseg
      rw [hsw h1.1] at hseg
      exact ih true [] (fun _ => rfl) (by simp [noDoubleNl]) (by simp) seg hseg
    · rw [if_neg h1] at hseg
      by_cases h2 : c = '\n' ∧ rest.head? = some '\n'
      · rw [if_pos h2] at hseg
        rcases List.mem_cons.mp hseg with rfl | hseg
        · exact hacc
        · exact ih true [] (fun _ => rfl) (by simp [noDoubleNl]) (by simp) seg hseg
      · rw [if_neg h2] at hseg
        refine ih false (c :: acc) (by simp) ?_ ?_ seg hseg
        · rw [List.reverse_cons]
          refine noDoubleNl_append _ _ hacc (by simp [noDoubleNl]) ?_
          intro x y hx hy
          rintro ⟨rfl, rfl⟩
          simp only [List.getLast?_reverse] at hx
          exact hhd hx (by simp at hy; simp [hy])
        · intro hch
          simp only [List.head?_cons, Option.some.injEq] at hch
          intro hrest
          exact h2 ⟨hch, hrest⟩

theorem splitOB_subset : ∀ (s : Str) (sw : Bool) (acc : Str)
    (seg : Str), seg ∈ splitOB sw acc s → ∀ c ∈ seg, c ∈ acc ∨ c ∈ s := by
  intro s
  induction s with
  | nil =>
    intro sw acc seg hseg c hc
    simp only [splitOB, List.mem_singleton] at hseg
    subst hseg
    exact Or.inl (by simpa using hc)
  | cons d rest ih =>
    intro sw acc seg hseg c hc
    rw [splitOB] at hseg
    by_cases h1 : sw = true ∧ d = '\n'
    · rw [if_pos h1] at hseg
      rcases ih true acc seg hseg c hc with h | h
      · exact Or.inl h
      · exact Or.inr (by simp [h])
    · rw [if_neg h1] at hseg
      by_cases h2 : d = '\n' ∧ rest.head? = some '\n'
      · rw [if_pos h2] at hseg
        rcases List.mem_cons.mp hseg with rfl | hseg
        · exact Or.inl (by simpa using hc)
        · rcases ih true [] seg hseg c hc with h | h
          · simp at h
          · exact Or.inr (by simp [h])
      · rw [if_neg h2] at hseg
        rcases ih false (d :: acc) seg hseg c hc with h | h
        · rcases List.mem_cons.mp h with rfl | h
          · exact Or.inr (by simp)
          · exact Or.inl h
        · exact Or.inr (by simp [h])

theorem splitOB_no_sep : ∀ (s : Str) (acc : Str), noDoubleNl s = true →
    splitOB false acc s = [acc.reverse ++ s] := by
  intro s
  induction s with
  | nil => intro acc _; simp [splitOB]
  | cons c rest ih =>
    intro acc hs
    rw [splitOB, if_neg (by simp)]
    have h2 : ¬(c = '\n' ∧ rest.head? = some '\n') := by
      rintro ⟨rfl, hr⟩
      cases rest with
      | nil => simp at hr
      | cons d r' =>
        simp only [List.head?_cons, Option.some.injEq] at hr
        exact noDoubleNl_pair _ _ _ hs ⟨rfl, hr⟩
    rw [if_neg h2, ih (c :: acc) (noDoubleNl_cons _ _ hs)]
    simp

theorem splitOB_swallow_exit (r : Str) (h : r.head? ≠ some '\n') :
    splitOB true [] r = splitOB false [] r := by
  cases r with
  | nil => rfl
  | cons c r' =>
    have hc : c ≠ '\n' := by
      intro hc
      exact h (by simp [hc])
    simp [splitOB, hc]

theorem splitOB_step : ∀ (b : Str), noDoubleNl b = true →
    b.getLast? ≠ some '\n' → ∀ (r : Str) (acc : Str),
    splitOB false acc (b ++ '\n' :: '\n' :: r) =
      (acc.reverse ++ b) :: splitOB true [] ('\n' :: r) := by
  intro b
  induction b with
  | nil =>
    intro _ _ r acc
    rw [List.nil_append, splitOB, if_neg (by simp), if_pos (by simp)]
    simp
  | cons x b' ih =>
    intro hb hlast r acc
    have hcond : ¬(x = '\n' ∧ (b' ++ '\n' :: '\n' :: r).head? = some '\n') := by
      rintro ⟨rfl, hhead⟩
      cases b' with
      | nil => exact hlast (by simp)
      | cons y b'' =>
        simp only [List.cons_append, List.head?_cons, Option.some.injEq] at hhead
        exact noDoubleNl_pair _ _ _ hb ⟨rfl, hhead⟩
    rw [List.cons_append, splitOB, if_neg (by simp), if_neg hcond]
    have hlast' : b'.getLast? ≠ some '\n' := by
      cases b' with
      | nil => simp
      | cons y b'' => rwa [List.getLast?_cons_cons] at hlast
    rw [ih (noDoubleNl_cons _ _ hb) hlast' r (x :: acc)]
    simp

/-! ### Joining blocks and re-splitting -/

theorem joinSep_head? (sep : Str) (b : Str) (rest : List Str)
    (hb : b ≠ []) : (joinSep sep (b :: rest)).head? = b.head? := by
  cases rest with
  | nil => rfl
  | cons r rest' =>
    rw [joinSep_cons _ _ _ (by simp)]
    cases b with
    | nil => exact absurd rfl hb
    | cons c b'' => simp

theorem joinSep_getLast? (sep : Str) : ∀ (bs : List Str) (b : Str),
    bs.getLast? = some b → b ≠ [] →
    (joinSep sep bs).getLast? = b.getLast? := by
  intro bs
  induction bs with
  | nil => intro b hb; simp at hb
  | cons hd rest ih =>
    intro b hb hbne
    cases rest with
    | nil =>
      simp only [List.getLast?_singleton, Option.some.injEq] at hb
      subst hb
      rfl
    | cons r rest' =>
      rw [List.getLast?_cons_cons] at hb
      have hJ := ih b hb hbne
      rcases List.exists_cons_of_ne_nil hbne with ⟨c0, b0, rfl⟩
      have hJne : joinSep sep (r :: rest') ≠ [] := by
        intro h0
        rw [h0, List.getLast?_eq_getLast_of_ne_nil (l := c0 :: b0) (by simp)] at hJ
        simp at hJ
      rw [joinSep_cons _ _ _ (by simp), List.append_assoc,
        List.getLast?_append_of_ne_nil _ (by simp [hJne]), ← hJ,
        List.getLast?_append_of_ne_nil _ hJne]

/-- Re-splitting the blank-line join of well-shaped blocks recovers exactly
the blocks: each block is nonempty, free of internal blank lines, and does
not begin or end with a newline. -/
theorem splitBlocks_joinSep : ∀ (bs : List Str), bs ≠ [] →
    (∀ b ∈ bs, noDoubleNl b = true ∧ b.head? ≠ some '\n' ∧
      b.getLast? ≠ some '\n' ∧ b ≠ []) →
    splitBlocks (joinSep ['\n', '\n'] bs) = bs := by
  intro bs
  induction bs with
  | nil => intro h; exact absurd rfl h
  | cons b rest ih =>
    intro _ h
    obtain ⟨hb1, hb2, hb3, hb4⟩ := h b (by simp)
    cases rest with
    | nil =>
      show splitOB false [] (joinSep _ [b]) = [b]
      rw [show joinSep ['\n', '\n'] [b] = b from rfl, splitOB_no_sep b [] hb1]
      simp
    | cons r rest' =>
      rw [joinSep_cons _ _ _ (by simp), List.append_assoc]
      show splitOB false [] (b ++ ('\n' :: '\n' :: joinSep ['\n', '\n'] (r :: rest'))) = _
      rw [splitOB_step b hb1 hb3 _ []]
      rw [show splitOB true [] ('\n' :: joinSep ['\n', '\n'] (r :: rest')) =
        splitOB true [] (joinSep ['\n', '\n'] (r :: rest')) from by simp [splitOB]]
      obtain ⟨hr1, hr2, hr3, hr4⟩ := h r (by simp)
      rw [splitOB_swallow_exit _ (by rw [joinSep_head? _ _ _ hr4]; exact hr2)]
      rw [show splitOB false [] (joinSep ['\n', '\n'] (r :: rest')) =
        splitBlocks (joinSep ['\n', '\n'] (r :: rest')) from rfl]
      rw [ih (by simp) (fun x hx => h x (by simp [hx]))]
      simp

/-! ### Timestamp groups -/

/-- A string that is exactly one `\d{2}:\d{2}:\d{2}[,\.]\d{3}` group. -/
def isTsGroup (g : Str) : Prop := matchTsGroup g = some (g, [])

theorem matchTsGroup_elim (s g r : Str) (h : matchTsGroup s = some (g, r)) :
    ∃ a b s1 c d s2 e f sep x y z,
      g = [a, b, s1, c, d, s2, e, f, sep, x, y, z] ∧ s = g ++ r ∧
      (a.isDigit && b.isDigit && s1 = ':' && c.isDigit && d.isDigit &&
       s2 = ':' && e.isDigit && f.isDigit && (sep = ',' || sep = '.') &&
       x.isDigit && y.isDigit && z.isDigit) = true := by
  unfold matchTsGroup at h
  split at h
  · next a b s1 c d s2 e f sep x y z rest =>
    split at h
    · next hcond =>
      rw [Option.some.injEq, Prod.mk.injEq] at h
      obtain ⟨hg, hr⟩ := h
      subst hg
      subst hr
      exact ⟨a, b, s1, c, d, s2, e, f, sep, x, y, z, rfl, by simp, hcond⟩
    · exact absurd h (by simp)
  · exact absurd h (by simp)

theorem matchTsGroup_append (g : Str) (hg : isTsGroup g) (r : Str) :
    matchTsGroup (g ++ r) = some (g, r) := by
  obtain ⟨a, b, s1, c, d, s2, e, f, sep, x, y, z, hshape, _, hcond⟩ :=
    matchTsGroup_elim g g [] hg
  subst hshape
  simp only [List.cons_append, List.nil_append]
  simp only [matchTsGroup]
  rw [if_pos hcond]

theorem isTsGroup_of_match (s g r : Str) (h : matchTsGroup s = some (g, r)) :
    isTsGroup g := by
  obtain ⟨a, b, s1, c, d, s2, e, f, sep, x, y, z, hshape, _, hcond⟩ :=
    matchTsGroup_elim s g r h
  subst hshape
  unfold isTsGroup
  simp only [matchTsGroup]
  rw [if_pos hcond]

theorem isTsGroup_chars (g : Str) (hg : isTsGroup g) :
    ∀ c ∈ g, c ≠ '\n' ∧ c ≠ '\r' ∧ isPySpace c = false ∧
      isRegexSpace c = false := by
  obtain ⟨a, b, s1, c, d, s2, e, f, sep, x, y, z, hshape, _, hcond⟩ :=
    matchTsGroup_elim g g [] hg
  subst hshape
  simp only [Bool.and_eq_true, decide_eq_true_eq, Bool.or_eq_true] at hcond
  obtain ⟨⟨⟨⟨⟨⟨⟨⟨⟨⟨⟨ha, hb⟩, hs1⟩, hc⟩, hd⟩, hs2⟩, he⟩, hf⟩, hsep⟩, hx⟩, hy⟩, hz⟩ := hcond
  intro u hu
  have digit_ok : ∀ v : Char, v.isDigit = true → v ≠ '\n' ∧ v ≠ '\r' ∧
      isPySpace v = false ∧ isRegexSpace v = false := fun v hv =>
    ⟨isDigit_ne_nl v hv, isDigit_ne_cr v hv, isDigit_not_pySpace v hv,
      isDigit_not_regexSpace v hv⟩
  simp only [List.mem_cons, List.not_mem_nil, or_false] at hu
  rcases hu with rfl | rfl | rfl | rfl | rfl | rfl | rfl | rfl | rfl | rfl | rfl | rfl
  · exact digit_ok u ha
  · exact digit_ok u hb
  · subst hs1; refine ⟨by decide, by decide, by decide, by decide⟩
  · exact digit_ok u hc
  · exact digit_ok u hd
  · subst hs2; refine ⟨by decide, by decide, by decide, by decide⟩
  · exact digit_ok u he
  · exact digit_ok u hf
  · rcases hsep with rfl | rfl
    · exact ⟨by decide, by decide, by decide, by decide⟩
    · exact ⟨by decide, by decide, by decide, by decide⟩
  · exact digit_ok u hx
  · exact digit_ok u hy
  · exact digit_ok u hz

theorem isTsGroup_head? (g : Str) (hg : isTsGroup g) :
    ∃ c, g.head? = some c ∧ c.isDigit = true := by
  obtain ⟨a, b, s1, c, d, s2, e, f, sep, x, y, z, hshape, _, hcond⟩ :=
    matchTsGroup_elim g g [] hg
  subst hshape
  simp only [Bool.and_eq_true, decide_eq_true_eq] at hcond
  exact ⟨a, rfl, hcond.1.1.1.1.1.1.1.1.1.1.1⟩

theorem isTsGroup_getLast? (g : Str) (hg : isTsGroup g) :
    ∃ c, g.getLast? = some c ∧ c.isDigit = true := by
  obtain ⟨a, b, s1, c, d, s2, e, f, sep, x, y, z, hshape, _, hcond⟩ :=
    matchTsGroup_elim g g [] hg
  subst hshape
  simp only [Bool.and_eq_true, decide_eq_true_eq] at hcond
  exact ⟨z, by simp, hcond.2⟩

theorem isTsGroup_ne_nil (g : Str) (hg : isTsGroup g) : g ≠ [] := by
  obtain ⟨a, b, s1, c, d, s2, e, f, sep, x, y, z, hshape, _, _⟩ :=
    matchTsGroup_elim g g [] hg
  subst hshape
  simp

theorem tsMatch_elim (s g1 g2 : Str) (h : tsMatch s = some (g1, g2)) :
    isTsGroup g1 ∧ isTsGroup g2 := by
  unfold tsMatch at h
  cases hm : matchTsGroup s with
  | none => rw [hm] at h; simp at h
  | some p =>
    obtain ⟨g1', r1⟩ := p
    rw [hm, Option.some_bind] at h
    dsimp only at h
    split at h
    · next r3 _ =>
      cases hm2 : matchTsGroup (r3.dropWhile isRegexSpace) with
      | none => rw [hm2] at h; simp at h
      | some q =>
        obtain ⟨g2', r2⟩ := q
        rw [hm2] at h
        simp only [Option.map_some', Option.some.injEq, Prod.mk.injEq] at h
        obtain ⟨hg1, hg2⟩ := h
        subst hg1
        subst hg2
        exact ⟨isTsGroup_of_match _ _ _ hm, isTsGroup_of_match _ _ _ hm2⟩
    · simp at h

theorem head?_append_of_ne_nil (a b : Str) (ha : a ≠ []) :
    (a ++ b).head? = a.head? := by
  cases a with
  | nil => exact absurd rfl ha
  | cons c a' => simp

theorem tsMatch_canonical (g1 g2 : Str) (h1 : isTsGroup g1)
    (h2 : isTsGroup g2) :
    tsMatch (g1 ++ (" --> ".data) ++ g2) = some (g1, g2) := by
  have harr : (" --> ".data : Str) = ' ' :: '-' :: '-' :: '>' :: ' ' :: [] := rfl
  rw [List.append_assoc, harr]
  unfold tsMatch
  rw [show (' ' :: '-' :: '-' :: '>' :: ' ' :: []) ++ g2 =
    ' ' :: '-' :: '-' :: '>' :: ' ' :: g2 from rfl]
  rw [matchTsGroup_append g1 h1, Option.some_bind]
  have hdw : (' ' :: '-' :: '-' :: '>' :: ' ' :: g2).dropWhile isRegexSpace =
      '-' :: '-' :: '>' :: ' ' :: g2 := by
    rw [List.dropWhile_cons_of_pos (by decide), List.dropWhile_cons_of_neg (by decide)]
  rw [hdw]
  have hg2 : (' ' :: g2).dropWhile isRegexSpace = g2 := by
    rw [List.dropWhile_cons_of_pos (by decide)]
    obtain ⟨c, hc, hcd⟩ := isTsGroup_head? g2 h2
    exact dropWhile_eq_self_of_head _ _ (fun d hd => by
      rw [hc] at hd
      injection hd with hd
      subst hd
      exact isDigit_not_regexSpace _ hcd)
  show Option.map (fun q => (g1, q.1))
      (matchTsGroup (List.dropWhile isRegexSpace (' ' :: g2))) = some (g1, g2)
  rw [hg2, h2]
  rfl

/-! ### Invariants of accepted entries -/

/-- Shape invariants of every entry produced by `SRTParser._parse_block`
on a block cut out by `SRTParser.parse`: the text is stripped, nonempty,
free of carriage returns and of internal blank lines, and the two
timestamps are exact regex groups. -/
def GoodEntry (e : SubtitleEntry) : Prop :=
  pyStrip e.text = e.text ∧ e.text ≠ [] ∧ noDoubleNl e.text = true ∧
  '\r' ∉ e.text ∧ isTsGroup e.start_time ∧ isTsGroup e.end_time

theorem joinNl_cons_of_ne_nil (l0 : Str) (ls : List Str) (h : ls ≠ []) :
    joinNl (l0 :: ls) = l0 ++ '\n' :: joinNl ls := by
  rw [joinNl, joinSep_cons _ _ _ h]
  simp [joinNl]

theorem parseBlock_good (block : Str) (e : SubtitleEntry)
    (hnd : noDoubleNl block = true) (hcr : '\r' ∉ block)
    (h : parseBlock block = some e) : GoodEntry e := by
  unfold parseBlock at h
  split at h
  · next l0 l1 l2 rest hsplit =>
    cases hint : pyInt (pyStrip l0) with
    | none => rw [hint] at h; simp at h
    | some idx =>
      rw [hint, Option.some_bind] at h
      cases hts : tsMatch (pyStrip l1) with
      | none => rw [hts] at h; simp at h
      | some q =>
        obtain ⟨st, en⟩ := q
        rw [hts, Option.map_some'] at h
        rw [Option.some.injEq] at h
        subst h
        obtain ⟨hst, hen⟩ := tsMatch_elim _ _ _ hts
        -- decompose the stripped block around the text lines
        set t := pyStrip block with ht
        have htnd : noDoubleNl t = true := noDoubleNl_pyStrip _ hnd
        have htj : joinNl (splitNl t) = t := joinNl_splitNl t
        rw [hsplit] at htj
        rw [joinNl_cons_of_ne_nil _ _ (by simp),
          joinNl_cons_of_ne_nil _ _ (by simp)] at htj
        set J := joinNl (l2 :: rest) with hJ
        have hsuffix : t = (l0 ++ '\n' :: (l1 ++ ['\n'])) ++ J := by
          rw [← htj]
          simp
        have htne : t ≠ [] := by
          intro h0
          rw [h0] at hsplit
          have : splitNl ([] : Str) = [[]] := rfl
          rw [this] at hsplit
          simp at hsplit
        obtain ⟨c, hc⟩ := List.exists_cons_of_ne_nil htne
        obtain ⟨cs, hcs⟩ := hc
        have hlast : ∃ d, t.getLast? = some d ∧ isPySpace d = false := by
          have h1 : t.getLast? = some (t.getLast htne) :=
            List.getLast?_eq_getLast_of_ne_nil htne
          exact ⟨t.getLast htne, h1, pyStrip_getLast? block _ h1⟩
        obtain ⟨d, hd, hdns⟩ := hlast
        have hJne : J ≠ [] := by
          intro h0
          rw [h0, List.append_nil] at hsuffix
          rw [hsuffix] at hd
          rw [List.getLast?_append_of_ne_nil _ (by simp :
            ('\n' :: (l1 ++ ['\n'])) ≠ [])] at hd
          rw [show ('\n' :: (l1 ++ ['\n'])) = ('\n' :: l1) ++ ['\n'] from by simp,
            List.getLast?_append_of_ne_nil _ (by simp)] at hd
          simp only [List.getLast?_singleton, Option.some.injEq] at hd
          rw [← hd] at hdns
          exact absurd hdns (by decide)
        have hJlast : J.getLast? = some d := by
          rw [hsuffix] at hd
          rwa [List.getLast?_append_of_ne_nil _ hJne] at hd
        have hJnd : noDoubleNl J = true := by
          rw [hsuffix] at htnd
          exact noDoubleNl_append_right _ _ htnd
        have hJsub : ∀ u, u ∈ J → u ∈ t := by
          intro u hu
          rw [hsuffix]
          simp [hu]
        refine ⟨pyStrip_idem _, ?_, ?_, ?_, hst, hen⟩
        · exact pyStrip_ne_nil J d hJlast hdns
        · exact noDoubleNl_pyStrip _ hJnd
        · intro hmem
          exact hcr (pyStrip_subset _ _ (hJsub _ (pyStrip_subset _ _ hmem)))
  · simp at h

/-! ### Printing one entry back to a block -/

/-- The block emitted for one entry by `SRTParser.reconstruct` when the
entry keeps text `txt`: `f"{entry.index}\n{entry.timestamp}\n{txt}"`. -/
def blockOf (e : SubtitleEntry) (txt : Str) : Str :=
  intToStr e.index ++ '\n' :: e.timestamp ++ '\n' :: txt

/-- The block a fully self-translated entry produces: its own text. -/
def origBlock (e : SubtitleEntry) : Str := blockOf e e.text

theorem intToStr_chars (i : Int) :
    ∀ c ∈ intToStr i, c ≠ '\n' ∧ c ≠ '\r' ∧ isPySpace c = false := by
  intro c hc
  have digit_ok : ∀ v : Char, v.isDigit = true →
      v ≠ '\n' ∧ v ≠ '\r' ∧ isPySpace v = false := fun v hv =>
    ⟨isDigit_ne_nl v hv, isDigit_ne_cr v hv, isDigit_not_pySpace v hv⟩
  unfold intToStr at hc
  split at hc
  · rcases List.mem_cons.mp hc with rfl | hc
    · exact ⟨by decide, by decide, by decide⟩
    · exact digit_ok c (natToStr_all_digit _ c hc)
  · exact digit_ok c (natToStr_all_digit _ c hc)

theorem intToStr_ne_nil (i : Int) : intToStr i ≠ [] := by
  unfold intToStr
  split
  · simp
  · exact natToStr_ne_nil _

theorem pyStrip_intToStr (i : Int) : pyStrip (intToStr i) = intToStr i :=
  pyStrip_of_no_space _ (fun c hc => (intToStr_chars i c hc).2.2)

theorem pyInt_pyStrip_intToStr (i : Int) :
    pyInt (pyStrip (intToStr i)) = some i := by
  rw [pyStrip_intToStr, pyInt_intToStr]

theorem timestamp_chars (e : SubtitleEntry) (hst : isTsGroup e.start_time)
    (hen : isTsGroup e.end_time) :
    ∀ c ∈ e.timestamp, c ≠ '\n' ∧ c ≠ '\r' := by
  intro c hc
  unfold SubtitleEntry.timestamp at hc
  rcases List.mem_append.mp hc with hc | hc
  · rcases List.mem_append.mp hc with hc | hc
    · obtain ⟨h1, h2, _, _⟩ := isTsGroup_chars _ hst c hc
      exact ⟨h1, h2⟩
    · have : c = ' ' ∨ c = '-' ∨ c = '>' ∨ c = ' ' := by
        simpa using hc
      rcases this with rfl | rfl | rfl | rfl
      · exact ⟨by decide, by decide⟩
      · exact ⟨by decide, by decide⟩
      · exact ⟨by decide, by decide⟩
      · exact ⟨by decide, by decide⟩
  · obtain ⟨h1, h2, _, _⟩ := isTsGroup_chars _ hen c hc
    exact ⟨h1, h2⟩

theorem timestamp_head? (e : SubtitleEntry) (hst : isTsGroup e.start_time) :
    ∃ c, e.timestamp.head? = some c ∧ c.isDigit = true := by
  obtain ⟨c, hc, hcd⟩ := isTsGroup_head? _ hst
  refine ⟨c, ?_, hcd⟩
  unfold SubtitleEntry.timestamp
  rw [List.append_assoc, head?_append_of_ne_nil _ _ (isTsGroup_ne_nil _ hst)]
  exact hc

theorem timestamp_getLast? (e : SubtitleEntry) (hen : isTsGroup e.end_time) :
    ∃ c, e.timestamp.getLast? = some c ∧ c.isDigit = true := by
  obtain ⟨c, hc, hcd⟩ := isTsGroup_getLast? _ hen
  refine ⟨c, ?_, hcd⟩
  unfold SubtitleEntry.timestamp
  rw [List.getLast?_append_of_ne_nil _ (isTsGroup_ne_nil _ hen)]
  exact hc

theorem pyStrip_timestamp (e : SubtitleEntry) (hst : isTsGroup e.start_time)
    (hen : isTsGroup e.end_time) : pyStrip e.timestamp = e.timestamp := by
  obtain ⟨c1, hc1, hd1⟩ := timestamp_head? e hst
  obtain ⟨c2, hc2, hd2⟩ := timestamp_getLast? e hen
  refine pyStrip_eq_self _ ?_ ?_
  · intro c hc
    rw [hc1] at hc
    injection hc with hc
    subst hc
    exact isDigit_not_pySpace _ hd1
  · intro c hc
    rw [hc2] at hc
    injection hc with hc
    subst hc
    exact isDigit_not_pySpace _ hd2

theorem blockOf_eq (e : SubtitleEntry) (txt : Str) :
    blockOf e txt = intToStr e.index ++ '\n' :: (e.timestamp ++ '\n' :: txt) := by
  unfold blockOf
  simp

/-- Facts about `GoodEntry` text ends: a stripped nonempty text neither
starts nor ends with whitespace. -/
theorem goodText_head? (e : SubtitleEntry) (hstrip : pyStrip e.text = e.text) :
    ∀ c, e.text.head? = some c → isPySpace c = false := by
  intro c hc
  rw [← hstrip] at hc
  exact pyStrip_head? _ _ hc

theorem goodText_getLast? (e : SubtitleEntry)
    (hstrip : pyStrip e.text = e.text) :
    ∀ c, e.text.getLast? = some c → isPySpace c = false := by
  intro c hc
  rw [← hstrip] at hc
  exact pyStrip_getLast? _ _ hc

theorem pyStrip_blockOf (e : SubtitleEntry) (hg : GoodEntry e) :
    pyStrip (origBlock e) = origBlock e := by
  obtain ⟨hstrip, hne, hnd, hcr, hst, hen⟩ := hg
  refine pyStrip_eq_self _ ?_ ?_
  · intro c hc
    unfold origBlock at hc
    rw [blockOf_eq, head?_append_of_ne_nil _ _ (intToStr_ne_nil _)] at hc
    cases hi : intToStr e.index with
    | nil => exact absurd hi (intToStr_ne_nil _)
    | cons c0 r0 =>
      rw [hi] at hc
      injection hc with hc
      subst hc
      exact (intToStr_chars _ _ (by rw [hi]; simp)).2.2
  · intro c hc
    unfold origBlock at hc
    rw [blockOf_eq, List.getLast?_append_of_ne_nil _ (by simp),
      show ('\n' :: (e.timestamp ++ '\n' :: e.text)) =
        ('\n' :: e.timestamp ++ ['\n']) ++ e.text from by simp,
      List.getLast?_append_of_ne_nil _ hne] at hc
    exact goodText_getLast? e hstrip c hc

theorem splitNl_origBlock (e : SubtitleEntry) (hg : GoodEntry e) :
    splitNl (origBlock e) =
      intToStr e.index :: e.timestamp :: splitNl e.text := by
  obtain ⟨hstrip, hne, hnd, hcr, hst, hen⟩ := hg
  unfold origBlock
  rw [blockOf_eq,
    splitNl_append_nl _ _ (fun hmem => (intToStr_chars _ _ hmem).1 rfl),
    splitNl_append_nl _ _ (fun hmem =>
      (timestamp_chars e hst hen _ hmem).1 rfl)]

/-- Re-parsing the block printed for a good entry recovers exactly that
entry. -/
theorem parseBlock_origBlock (e : SubtitleEntry) (hg : GoodEntry e) :
    parseBlock (origBlock e) = some e := by
  obtain ⟨l2, rest, hsplitText⟩ :=
    List.exists_cons_of_ne_nil (splitNl_ne_nil e.text)
  obtain ⟨hstrip, hne, hnd, hcr, hst, hen⟩ := hg
  unfold parseBlock
  rw [pyStrip_blockOf e ⟨hstrip, hne, hnd, hcr, hst, hen⟩,
    splitNl_origBlock e ⟨hstrip, hne, hnd, hcr, hst, hen⟩, hsplitText]
  show (pyInt (pyStrip (intToStr e.index))).bind (fun index =>
      (tsMatch (pyStrip e.timestamp)).map (fun q =>
        { index := index, start_time := q.1, end_time := q.2,
          text := pyStrip (joinNl (l2 :: rest)) })) = some e
  rw [pyInt_pyStrip_intToStr, Option.some_bind, pyStrip_timestamp e hst hen,
    show tsMatch e.timestamp = some (e.start_time, e.end_time) from
      tsMatch_canonical _ _ hst hen,
    Option.map_some', ← hsplitText, joinNl_splitNl, hstrip]


/-! ### The sentence map against the flattened sentence list -/

/-- Flattened lines of a list of entries (the `sentences` property applied
to those entries). -/
def flattenLines (es : List SubtitleEntry) : List Str :=
  es.flatMap (fun e => splitNl e.text)

/-- `buildMap` generalised to an arbitrary starting entry index. -/
def buildMapFrom (n : Nat) (es : List SubtitleEntry) : List (Nat × Nat) :=
  (es.enumFrom n).flatMap
    (fun p => (List.range (splitNl p.2.text).length).map (fun j => (p.1, j)))

theorem buildMap_eq_from (es : List SubtitleEntry) :
    buildMap es = buildMapFrom 0 es := rfl

theorem sentences_eq (p : ParsedSubtitle) :
    p.sentences = flattenLines p.entries := rfl

theorem buildMapFrom_cons (n : Nat) (e : SubtitleEntry)
    (es : List SubtitleEntry) :
    buildMapFrom n (e :: es) =
      (List.range (splitNl e.text).length).map (fun j => (n, j)) ++
        buildMapFrom (n + 1) es := by
  unfold buildMapFrom
  rw [List.enumFrom_cons, List.flatMap_cons]

theorem buildMapFrom_length (n : Nat) (es : List SubtitleEntry) :
    (buildMapFrom n es).length = (flattenLines es).length := by
  induction es generalizing n with
  | nil => rfl
  | cons e es ih =>
    rw [buildMapFrom_cons, flattenLines, List.flatMap_cons, List.length_append,
      List.length_append, List.length_map, List.length_range, ih]
    rfl

/-- One entry's index group against its own lines: filtering the zipped
pairs for entry index `i` returns the whole line list iff `i` is that
entry's index. -/
theorem filterMap_zip_range : ∀ (L : List Str) (n i j0 : Nat),
    (((List.range' j0 L.length).map (fun j => (n, j))).zip L).filterMap
      (fun q => if q.1.1 = i then some q.2 else none) =
    if n = i then L else [] := by
  intro L
  induction L with
  | nil => intro n i j0; simp
  | cons x L' ih =>
    intro n i j0
    rw [List.length_cons, List.range'_succ, List.map_cons, List.zip_cons_cons,
      List.filterMap_cons]
    by_cases h : n = i
    · simp only [h, if_pos rfl]
      rw [ih i i (j0 + 1)]
      simp
    · simp only [if_neg h]
      rw [ih n i (j0 + 1), if_neg h]

/-- Lines of the `k`-th entry, or `[]` past the end. -/
def linesAt (es : List SubtitleEntry) (k : Nat) : List Str :=
  match es[k]? with
  | some e => splitNl e.text
  | none => []

theorem filterMap_zip_buildMapFrom : ∀ (es : List SubtitleEntry) (n i : Nat),
    ((buildMapFrom n es).zip (flattenLines es)).filterMap
      (fun q => if q.1.1 = i then some q.2 else none) =
    if n ≤ i then linesAt es (i - n) else [] := by
  intro es
  induction es with
  | nil =>
    intro n i
    simp [buildMapFrom, flattenLines, linesAt]
  | cons e es' ih =>
    intro n i
    rw [buildMapFrom_cons, flattenLines, List.flatMap_cons,
      List.zip_append (by simp), List.filterMap_append]
    rw [show (List.range (splitNl e.text).length) =
      List.range' 0 (splitNl e.text).length from List.range_eq_range' _]
    rw [filterMap_zip_range _ n i 0]
    rw [show es'.flatMap (fun e => splitNl e.text) = flattenLines es' from rfl]
    rw [ih (n + 1) i]
    by_cases h : n = i
    · subst h
      rw [if_pos rfl, if_neg (by omega), if_pos (le_refl n)]
      simp [linesAt]
    · rw [if_neg h]
      by_cases h2 : n ≤ i
      · have h3 : n + 1 ≤ i := by omega
        rw [if_pos h3, if_pos h2, List.nil_append]
        unfold linesAt
        have : i - n = (i - (n + 1)) + 1 := by omega
        rw [this, List.getElem?_cons_succ]
      · rw [if_neg (by omega), if_neg h2]
        simp

theorem buildMapFrom_getElem : ∀ (es : List SubtitleEntry) (n i ei li : Nat),
    (buildMapFrom n es)[i]? = some (ei, li) →
    ∃ e s, es[ei - n]? = some e ∧ n ≤ ei ∧
      (splitNl e.text)[li]? = some s ∧ (flattenLines es)[i]? = some s := by
  intro es
  induction es with
  | nil => intro n i ei li h; simp [buildMapFrom] at h
  | cons e es' ih =>
    intro n i ei li h
    rw [buildMapFrom_cons] at h
    set m := (splitNl e.text).length with hm
    by_cases hlt : i < m
    · rw [List.getElem?_append, if_pos (by simpa using hlt)] at h
      rw [List.getElem?_map, List.getElem?_range hlt] at h
      simp only [Option.map_some', Option.some.injEq, Prod.mk.injEq] at h
      obtain ⟨hei, hli⟩ := h
      subst hei
      subst hli
      obtain ⟨s, hs⟩ : ∃ s, (splitNl e.text)[i]? = some s :=
        ⟨(splitNl e.text)[i], List.getElem?_eq_getElem hlt⟩
      refine ⟨e, s, by simp, le_refl n, hs, ?_⟩
      rw [flattenLines, List.flatMap_cons, List.getElem?_append,
        if_pos (by simpa using hlt)]
      exact hs
    · rw [List.getElem?_append_right (by simpa using not_lt.mp hlt)] at h
      rw [List.length_map, List.length_range] at h
      obtain ⟨e', s, hget, hle, hlines, hflat⟩ := ih (n + 1) (i - m) ei li h
      refine ⟨e', s, ?_, by omega, hlines, ?_⟩
      · have : ei - n = (ei - (n + 1)) + 1 := by omega
        rw [this, List.getElem?_cons_succ]
        exact hget
      · rw [flattenLines, List.flatMap_cons,
          List.getElem?_append_right (by simpa using not_lt.mp hlt)]
        exact hflat

/-! ### Normalisation and reconstruction facts -/

theorem normalize_no_cr : ∀ (s : Str), '\r' ∉ normalizeNewlines s := by
  intro s
  induction s using normalizeNewlines.induct with
  | case1 => simp [normalizeNewlines]
  | case2 => simp [normalizeNewlines]
  | case3 c hc =>
    rw [normalizeNewlines, if_neg hc]
    simp [Ne.symm hc]
  | case4 rest ih =>
    rw [normalizeNewlines, if_pos rfl, if_pos rfl]
    intro h
    rcases List.mem_cons.mp h with h | h
    · exact absurd h.symm (by decide)
    · exact ih h
  | case5 d rest hd ih =>
    rw [normalizeNewlines, if_pos rfl, if_neg hd]
    intro h
    rcases List.mem_cons.mp h with h | h
    · exact absurd h.symm (by decide)
    · exact ih h
  | case6 c d rest hc ih =>
    rw [normalizeNewlines, if_neg hc]
    intro h
    rcases List.mem_cons.mp h with h | h
    · exact hc h.symm
    · exact ih h

theorem normalize_eq_self : ∀ (s : Str), '\r' ∉ s →
    normalizeNewlines s = s := by
  intro s
  induction s using normalizeNewlines.induct with
  | case1 => intro _; rfl
  | case2 => intro h; simp at h
  | case3 c hc =>
    intro _
    rw [normalizeNewlines, if_neg hc]
  | case4 rest ih => intro h; simp at h
  | case5 d rest hd ih => intro h; simp at h
  | case6 c d rest hc ih =>
    intro h
    have hr : '\r' ∉ d :: rest := by
      intro hrr
      exact h (List.mem_cons_of_mem c hrr)
    rw [normalizeNewlines, if_neg hc, ih hr]

theorem noDoubleNl_of_no_nl (s : Str) (h : '\n' ∉ s) :
    noDoubleNl s = true := by
  induction s with
  | nil => rfl
  | cons c rest ih =>
    cases rest with
    | nil => rfl
    | cons d r =>
      rw [noDoubleNl, Bool.and_eq_true]
      refine ⟨?_, ih (fun hm => h (by simp [hm]))⟩
      have hc : c ≠ '\n' := fun hcc => h (by simp [hcc])
      simp [hc]

theorem noDoubleNl_cons_intro (c : Char) (l : Str)
    (hl : noDoubleNl l = true)
    (hhd : ∀ d, l.head? = some d → ¬(c = '\n' ∧ d = '\n')) :
    noDoubleNl (c :: l) = true := by
  cases l with
  | nil => rfl
  | cons d r =>
    rw [noDoubleNl, Bool.and_eq_true]
    refine ⟨?_, hl⟩
    have := hhd d rfl
    by_contra hx
    simp only [Bool.not_eq_true', Bool.not_eq_false, Bool.and_eq_true] at hx
    exact this ⟨by simpa using hx.1, by simpa using hx.2⟩

theorem mem_joinSep (sep : Str) : ∀ (bs : List Str) (c : Char),
    c ∈ joinSep sep bs → (∃ b ∈ bs, c ∈ b) ∨ c ∈ sep := by
  intro bs
  induction bs with
  | nil => intro c hc; simp [joinSep] at hc
  | cons b rest ih =>
    intro c hc
    cases rest with
    | nil =>
      exact Or.inl ⟨b, by simp, hc⟩
    | cons r rest' =>
      rw [joinSep_cons _ _ _ (by simp)] at hc
      rcases List.mem_append.mp hc with hc | hc
      · rcases List.mem_append.mp hc with hc | hc
        · exact Or.inl ⟨b, by simp, hc⟩
        · exact Or.inr hc
      · rcases ih c hc with ⟨b', hb', hcb⟩ | hc
        · exact Or.inl ⟨b', by simp [hb'], hcb⟩
        · exact Or.inr hc

theorem filterMap_id_of (es : List SubtitleEntry)
    (f : SubtitleEntry → Option SubtitleEntry)
    (h : ∀ e ∈ es, f e = some e) : es.filterMap f = es := by
  induction es with
  | nil => rfl
  | cons e rest ih =>
    rw [List.filterMap_cons, h e (by simp)]
    rw [ih (fun x hx => h x (by simp [hx]))]

/-- Every entry that `parse` produces satisfies the `GoodEntry` shape
invariants. -/
theorem parse_entries_good (content : Str) :
    ∀ e ∈ (parse content).entries, GoodEntry e := by
  intro e he
  have hent : (parse content).entries = (blocksOf content).filterMap parseBlock := rfl
  rw [hent, List.mem_filterMap] at he
  obtain ⟨b, hb, hpb⟩ := he
  refine parseBlock_good b e ?_ ?_ hpb
  · exact splitOB_noDoubleNl _ false [] (by simp) (by rfl) (by simp) b hb
  · intro hmem
    rcases splitOB_subset _ false [] b hb '\r' hmem with h | h
    · simp at h
    · exact normalize_no_cr content (pyStrip_subset _ _ h)

theorem mem_enum_getElem? (es : List SubtitleEntry) (i : Nat)
    (e : SubtitleEntry) (h : (i, e) ∈ es.enum) : es[i]? = some e := by
  rw [List.mem_iff_getElem?] at h
  obtain ⟨k, hk⟩ := h
  rw [List.getElem?_enum] at hk
  cases hek : es[k]? with
  | none => rw [hek] at hk; simp at hk
  | some e' =>
    rw [hek] at hk
    simp only [Option.map_some', Option.some.injEq, Prod.mk.injEq] at hk
    obtain ⟨rfl, rfl⟩ := hk
    exact hek

theorem entryLines_full (es : List SubtitleEntry) (i : Nat) :
    entryLines ⟨es, buildMap es⟩ (flattenLines es) i = linesAt es i := by
  unfold entryLines
  show ((buildMap es).zip (flattenLines es)).filterMap _ = _
  rw [buildMap_eq_from, filterMap_zip_buildMapFrom es 0 i,
    if_pos (Nat.zero_le i), Nat.sub_zero]

theorem reconstructBlocks_self (es : List SubtitleEntry) :
    reconstructBlocks ⟨es, buildMap es⟩ (flattenLines es) =
      es.map origBlock := by
  unfold reconstructBlocks
  have hmap : ∀ q ∈ es.enum,
      (intToStr q.2.index ++ '\n' :: q.2.timestamp ++ '\n' ::
        (if (entryLines ⟨es, buildMap es⟩ (flattenLines es) q.1).isEmpty
         then q.2.text
         else joinNl (entryLines ⟨es, buildMap es⟩ (flattenLines es) q.1))) =
      origBlock q.2 := by
    intro q hq
    obtain ⟨i, e⟩ := q
    have hget : es[i]? = some e := mem_enum_getElem? es i e hq
    have hlines : entryLines ⟨es, buildMap es⟩ (flattenLines es) i =
        splitNl e.text := by
      rw [entryLines_full, linesAt, hget]
    have hone : (splitNl e.text).isEmpty = false := by
      cases hs : splitNl e.text with
      | nil => exact absurd hs (splitNl_ne_nil _)
      | cons a t => rfl
    show (intToStr e.index ++ '\n' :: e.timestamp ++ '\n' ::
      (if (entryLines ⟨es, buildMap es⟩ (flattenLines es) i).isEmpty
       then e.text
       else joinNl (entryLines ⟨es, buildMap es⟩ (flattenLines es) i)))
      = origBlock e
    rw [hlines, hone]
    show (intToStr e.index ++ '\n' :: e.timestamp ++ '\n' ::
      joinNl (splitNl e.text)) = origBlock e
    rw [joinNl_splitNl]
    rfl
  rw [List.map_congr_left hmap]
  rw [show (fun q : Nat × SubtitleEntry => origBlock q.2) =
    (origBlock ∘ Prod.snd) from rfl]
  rw [← List.map_map, List.enum_map_snd]

/-! ### Shape of an emitted block -/

theorem origBlock_ne_nil (e : SubtitleEntry) : origBlock e ≠ [] := by
  unfold origBlock
  rw [blockOf_eq]
  intro h
  rcases List.append_eq_nil.mp h with ⟨h1, _⟩
  exact intToStr_ne_nil _ h1

theorem origBlock_head?_not_space (e : SubtitleEntry) :
    ∀ c, (origBlock e).head? = some c → isPySpace c = false := by
  intro c hc
  unfold origBlock at hc
  rw [blockOf_eq, head?_append_of_ne_nil _ _ (intToStr_ne_nil _)] at hc
  cases hi : intToStr e.index with
  | nil => exact absurd hi (intToStr_ne_nil _)
  | cons c0 r0 =>
    rw [hi] at hc
    injection hc with hc
    subst hc
    exact (intToStr_chars _ _ (by rw [hi]; simp)).2.2

theorem origBlock_getLast?_eq (e : SubtitleEntry) (hne : e.text ≠ []) :
    (origBlock e).getLast? = e.text.getLast? := by
  unfold origBlock
  rw [blockOf_eq, List.getLast?_append_of_ne_nil _ (by simp),
    show ('\n' :: (e.timestamp ++ '\n' :: e.text)) =
      ('\n' :: e.timestamp ++ ['\n']) ++ e.text from by simp,
    List.getLast?_append_of_ne_nil _ hne]

theorem not_space_ne_nl (c : Char) (h : isPySpace c = false) : c ≠ '\n' := by
  rintro rfl
  exact absurd h (by decide)

theorem timestamp_no_nl (e : SubtitleEntry) (hst : isTsGroup e.start_time)
    (hen : isTsGroup e.end_time) : '\n' ∉ e.timestamp := by
  intro hmem
  exact (timestamp_chars e hst hen _ hmem).1 rfl

theorem origBlock_shape (e : SubtitleEntry) (hg : GoodEntry e) :
    noDoubleNl (origBlock e) = true ∧ (origBlock e).head? ≠ some '\n' ∧
    (origBlock e).getLast? ≠ some '\n' ∧ origBlock e ≠ [] := by
  obtain ⟨hstrip, hne, hnd, hcr, hst, hen⟩ := hg
  obtain ⟨c1, hc1, hd1⟩ := timestamp_head? e hst
  obtain ⟨c2, hc2, hd2⟩ := timestamp_getLast? e hen
  have htsne : e.timestamp ≠ [] := by
    intro h0
    rw [h0] at hc1
    simp at hc1
  refine ⟨?_, ?_, ?_, origBlock_ne_nil e⟩
  · unfold origBlock
    rw [blockOf_eq]
    refine noDoubleNl_append _ _
      (noDoubleNl_of_no_nl _ (fun hm => (intToStr_chars _ _ hm).1 rfl)) ?_ ?_
    · refine noDoubleNl_cons_intro _ _ ?_ ?_
      · refine noDoubleNl_append _ _
          (noDoubleNl_of_no_nl _ (timestamp_no_nl e hst hen)) ?_ ?_
        · refine noDoubleNl_cons_intro _ _ hnd ?_
          intro d hd
          rintro ⟨_, rfl⟩
          exact not_space_ne_nl _ (goodText_head? e hstrip _ hd) rfl
        · intro x y hx hy
          rintro ⟨rfl, _⟩
          rw [hc2] at hx
          injection hx with hx
          exact isDigit_ne_nl _ hd2 hx
      · intro d hd
        rw [head?_append_of_ne_nil _ _ htsne, hc1] at hd
        injection hd with hd
        rintro ⟨_, hd2'⟩
        rw [← hd] at hd2'
        exact isDigit_ne_nl _ hd1 hd2'
    · intro x y hx hy
      rintro ⟨rfl, _⟩
      have hxmem : '\n' ∈ intToStr e.index := by
        obtain ⟨hne', hxl⟩ := List.mem_getLast?_eq_getLast (l := intToStr e.index)
          (x := '\n') (by simp [hx])
        rw [hxl]
        exact List.getLast_mem hne'
      exact (intToStr_chars _ _ hxmem).1 rfl
  · intro h
    exact absurd (origBlock_head?_not_space e _ h) (by decide)
  · rw [origBlock_getLast?_eq e hne]
    intro h
    exact absurd (goodText_getLast? e hstrip _ h) (by decide)

theorem origBlock_no_cr (e : SubtitleEntry) (hg : GoodEntry e) :
    '\r' ∉ origBlock e := by
  obtain ⟨hstrip, hne, hnd, hcr, hst, hen⟩ := hg
  unfold origBlock
  rw [blockOf_eq]
  intro hmem
  rcases List.mem_append.mp hmem with h | h
  · exact (intToStr_chars _ _ h).2.1 rfl
  · rcases List.mem_cons.mp h with h | h
    · exact absurd h.symm (by decide)
    · rcases List.mem_append.mp h with h | h
      · exact (timestamp_chars e hst hen _ h).2 rfl
      · rcases List.mem_cons.mp h with h | h
        · exact absurd h.symm (by decide)
        · exact hcr h

/-! ### The parse/reconstruct round trip -/

theorem parse_def (content : Str) :
    parse content = ⟨(blocksOf content).filterMap parseBlock,
      buildMap ((blocksOf content).filterMap parseBlock)⟩ := rfl

theorem reconstruct_self_eq (es : List SubtitleEntry) :
    reconstruct ⟨es, buildMap es⟩ (flattenLines es) =
      joinSep ['\n', '\n'] (es.map origBlock) := by
  unfold reconstruct
  rw [reconstructBlocks_self]

/-- Parsing the reconstruction of a parse with its own flattened sentences
returns exactly the original parse: same entries (indices, timestamps and
text byte-for-byte) and same sentence map. -/
theorem parse_reconstruct_roundtrip (content : Str) :
    parse (reconstruct (parse content) (parse content).sentences) =
      parse content := by
  have hp : parse content = ⟨(blocksOf content).filterMap parseBlock,
      buildMap ((blocksOf content).filterMap parseBlock)⟩ := rfl
  set es := (blocksOf content).filterMap parseBlock with hes
  have hgood : ∀ e ∈ es, GoodEntry e := by
    have h := parse_entries_good content
    rw [hp] at h
    exact h
  have hsent : (parse content).sentences = flattenLines es := by rw [hp]; rfl
  rw [hsent, hp, reconstruct_self_eq]
  cases hese : es with
  | nil => rfl
  | cons e0 es' =>
    rw [hese] at hgood
    have hgood0 := hgood e0 (by simp)
    set bs := (e0 :: es').map origBlock with hbs
    have hbs_mem : ∀ b ∈ bs, ∃ e ∈ e0 :: es', b = origBlock e := by
      intro b hb
      rw [hbs, List.mem_map] at hb
      obtain ⟨e, he, hbe⟩ := hb
      exact ⟨e, he, hbe.symm⟩
    have hnocr : '\r' ∉ joinSep ['\n', '\n'] bs := by
      intro hmem
      rcases mem_joinSep _ bs '\r' hmem with ⟨b, hb, hcb⟩ | hsep
      · obtain ⟨e, he, rfl⟩ := hbs_mem b hb
        exact origBlock_no_cr e (hgood e he) hcb
      · simp at hsep
    have hjoined_head : ∀ c, (joinSep ['\n', '\n'] bs).head? = some c →
        isPySpace c = false := by
      intro c hc
      rw [hbs] at hc
      rw [List.map_cons, joinSep_head? _ _ _ (origBlock_ne_nil e0)] at hc
      exact origBlock_head?_not_space e0 c hc
    have hjoined_last : ∀ c, (joinSep ['\n', '\n'] bs).getLast? = some c →
        isPySpace c = false := by
      intro c hc
      obtain ⟨elast, hel⟩ : ∃ elast, (e0 :: es').getLast? = some elast :=
        ⟨(e0 :: es').getLast (by simp),
          List.getLast?_eq_getLast_of_ne_nil (by simp)⟩
      have helmem : elast ∈ e0 :: es' := by
        obtain ⟨hne', hxl⟩ := List.mem_getLast?_eq_getLast (l := e0 :: es')
          (x := elast) (by simp [hel])
        rw [hxl]
        exact List.getLast_mem hne'
      have hbl : bs.getLast? = some (origBlock elast) := by
        rw [hbs, List.getLast?_map, hel, Option.map_some']
      rw [joinSep_getLast? _ bs _ hbl (origBlock_ne_nil elast)] at hc
      obtain ⟨hstrip', hne', _, _, _, _⟩ := hgood elast helmem
      rw [origBlock_getLast?_eq elast hne'] at hc
      exact goodText_getLast? elast hstrip' c hc
    have hblocks : blocksOf (joinSep ['\n', '\n'] bs) = bs := by
      unfold blocksOf
      rw [normalize_eq_self _ hnocr,
        pyStrip_eq_self _ hjoined_head hjoined_last]
      refine splitBlocks_joinSep bs (by rw [hbs]; simp) ?_
      intro b hb
      obtain ⟨e, he, rfl⟩ := hbs_mem b hb
      obtain ⟨h1, h2, h3, h4⟩ := origBlock_shape e (hgood e he)
      exact ⟨h1, h2, h3, h4⟩
    have hentries : bs.filterMap parseBlock = e0 :: es' := by
      rw [hbs, List.filterMap_map]
      exact filterMap_id_of _ _
        (fun e he => parseBlock_origBlock e (hgood e he))
    rw [parse_def, hblocks, hentries]

/-! ### Window partition laws -/

theorem chunkByAux_congr (k : Nat) : ∀ (f1 f2 : Nat) (l : List Str),
    l.length ≤ f1 → l.length ≤ f2 → chunkByAux k f1 l = chunkByAux k f2 l := by
  intro f1
  induction f1 with
  | zero =>
    intro f2 l h1 _
    have : l = [] := List.eq_nil_of_length_eq_zero (by omega)
    subst this
    cases f2 <;> rfl
  | succ f1 ih =>
    intro f2 l h1 h2
    cases l with
    | nil => cases f2 <;> rfl
    | cons x rest =>
      cases f2 with
      | zero => simp at h2
      | succ f2 =>
        rw [List.length_cons] at h1 h2
        rw [chunkByAux, chunkByAux]
        rw [ih f2 (rest.drop k) (by rw [List.length_drop]; omega)
          (by rw [List.length_drop]; omega)]

theorem chunkBy_cons (k : Nat) (x : Str) (rest : List Str) :
    chunkBy k (x :: rest) = (x :: rest.take k) :: chunkBy k (rest.drop k) := by
  unfold chunkBy
  rw [List.length_cons, chunkByAux]
  rw [chunkByAux_congr k rest.length (rest.drop k).length (rest.drop k)
    (by simp) (le_refl _)]

theorem chunkBy_flatten (k : Nat) : ∀ (l : List Str),
    (chunkBy k l).flatMap id = l := by
  suffices h : ∀ (n : Nat) (l : List Str), l.length = n →
      (chunkBy k l).flatMap id = l by
    intro l
    exact h l.length l rfl
  intro n
  induction n using Nat.strong_induction_on with
  | _ n ih =>
    intro l hn
    cases l with
    | nil => rfl
    | cons x rest =>
      rw [chunkBy_cons, List.flatMap_cons]
      rw [List.length_cons] at hn
      rw [ih (rest.drop k).length
        (by rw [List.length_drop]; omega) (rest.drop k) rfl]
      show x :: (rest.take k ++ rest.drop k) = x :: rest
      rw [List.take_append_drop]

theorem chunkBy_getElem? (k : Nat) : ∀ (l : List Str) (i : Nat),
    (chunkBy k l)[i]? =
      if i * (k + 1) < l.length then
        some ((l.drop (i * (k + 1))).take (k + 1))
      else none := by
  suffices h : ∀ (n : Nat) (l : List Str), l.length = n → ∀ (i : Nat),
      (chunkBy k l)[i]? =
        if i * (k + 1) < l.length then
          some ((l.drop (i * (k + 1))).take (k + 1))
        else none by
    intro l
    exact h l.length l rfl
  intro n
  induction n using Nat.strong_induction_on with
  | _ n ih =>
    intro l hn i
    cases l with
    | nil => simp [chunkBy, chunkByAux]
    | cons x rest =>
      rw [chunkBy_cons]
      cases i with
      | zero =>
        rw [List.getElem?_cons_zero, if_pos (by simp)]
        simp [List.take_succ_cons]
      | succ i =>
        rw [List.getElem?_cons_succ]
        rw [List.length_cons] at hn
        rw [ih (rest.drop k).length
          (by rw [List.length_drop]; omega) (rest.drop k) rfl i]
        have hlen : (rest.drop k).length = rest.length - k := by simp
        have harith : (i + 1) * (k + 1) = i * (k + 1) + k + 1 := by ring
        by_cases hc : i * (k + 1) < rest.length - k
        · rw [if_pos (by omega), if_pos (by rw [List.length_cons]; omega)]
          rw [harith, List.drop_drop]
          rw [show i * (k + 1) + k + 1 = (i * (k + 1) + k) + 1 from rfl]
          rw [List.drop_succ_cons]
          rw [show i * (k + 1) + k = k + i * (k + 1) from by omega]
        · rw [if_neg (by omega), if_neg (by rw [List.length_cons]; omega)]

theorem chunkBy_full_lengths (k : Nat) (l : List Str) (i : Nat)
    (h : ((chunkBy k l)[i + 1]?).isSome) :
    ((chunkBy k l)[i]?).map List.length = some (k + 1) := by
  rw [chunkBy_getElem?] at h
  by_cases hc : (i + 1) * (k + 1) < l.length
  · rw [chunkBy_getElem?, if_pos (by nlinarith)]
    rw [Option.map_some']
    congr 1
    rw [List.length_take, List.length_drop]
    have : (i + 1) * (k + 1) = i * (k + 1) + (k + 1) := by ring
    omega
  · rw [if_neg hc] at h
    simp at h

/-! ### Truncation of the translated-unit list -/

theorem zip_take_right {α β : Type} : ∀ (l : List α) (t : List β),
    l.zip (t.take l.length) = l.zip t := by
  intro l
  induction l with
  | nil => intro t; simp
  | cons x l' ih =>
    intro t
    cases t with
    | nil => simp
    | cons y t' =>
      rw [List.length_cons, List.take_succ_cons, List.zip_cons_cons,
        List.zip_cons_cons, ih t']

/-! ### Aggregation closed form -/

/-- Units a settled window contributes to the flat list. -/
def settledUnits (q : List Str × Except Str (List Str)) : List Str :=
  match q.2 with
  | .error _ => List.replicate q.1.length translationErrorStr
  | .ok ts => ts

/-- Translated-unit counter increment of a settled window. -/
def settledTrans (q : List Str × Except Str (List Str)) : Nat :=
  match q.2 with
  | .error _ => 0
  | .ok ts => ts.length

/-- Failed-unit counter increment of a settled window. -/
def settledFail (q : List Str × Except Str (List Str)) : Nat :=
  match q.2 with
  | .error _ => q.1.length
  | .ok _ => 0

theorem aggregateLoop_spec : ∀ (l : List (List Str × Except Str (List Str)))
    (acc : List Str) (t f : Nat),
    aggregateLoop acc t f l =
      (acc ++ l.flatMap settledUnits,
       t + (l.map settledTrans).sum, f + (l.map settledFail).sum) := by
  intro l
  induction l with
  | nil => intro acc t f; simp [aggregateLoop]
  | cons q rest ih =>
    intro acc t f
    obtain ⟨chunk, r⟩ := q
    cases r with
    | error e =>
      rw [aggregateLoop, ih]
      simp [settledUnits, settledTrans, settledFail]
      omega
    | ok ts =>
      rw [aggregateLoop, ih]
      simp [settledUnits, settledTrans, settledFail]
      omega

theorem zip_self_map {α β : Type} (l : List α) (g : α → β) :
    l.zip (l.map g) = l.map (fun x => (x, g x)) := by
  induction l with
  | nil => rfl
  | cons x l' ih => rw [List.map_cons, List.zip_cons_cons, List.map_cons, ih]

theorem filterMap_length_of_isSome {α β : Type} (f : α → Option β) :
    ∀ (l : List α), (∀ x ∈ l, (f x).isSome) →
    (l.filterMap f).length = l.length := by
  intro l
  induction l with
  | nil => intro _; rfl
  | cons x rest ih =>
    intro h
    rw [List.filterMap_cons]
    cases hf : f x with
    | none =>
      have := h x (by simp)
      rw [hf] at this
      simp at this
    | some b =>
      rw [List.length_cons, ih (fun y hy => h y (by simp [hy]))]
      rfl

theorem flattenLines_length (es : List SubtitleEntry) :
    (flattenLines es).length =
      (es.map (fun e => 1 + e.text.count '\n')).sum := by
  induction es with
  | nil => rfl
  | cons e rest ih =>
    rw [flattenLines, List.flatMap_cons, List.length_append, List.map_cons,
      List.sum_cons, splitNl_length]
    rw [show rest.flatMap (fun e => splitNl e.text) = flattenLines rest from rfl,
      ih]
    omega

/-! ## Claim theorems -/

/-- C2: for every input string, reconstructing the parsed document with a
translated-unit list equal to its own flattened sentences and re-parsing
the result yields exactly the same parse — identical entries (display
indices, start and end timestamps byte-for-byte including the millisecond
separator, and text) and identical sentence map. -/
theorem claim2_roundtrip (content : Str) :
    parse (reconstruct (parse content) (parse content).sentences) =
      parse content :=
  parse_reconstruct_roundtrip content

/-- C7: for every document produced by `parse`, the sentence map has
exactly as many elements as the flattened sentence list (the sum over
entries of one plus the count of embedded newlines), and every map entry
`(entryIdx, lineIdx)` locates the corresponding flattened sentence inside
the source entries. -/
theorem claim7_unit_map (content : Str) :
    (parse content).sentence_map.length = (parse content).sentences.length ∧
    (parse content).sentences.length =
      ((parse content).entries.map (fun e => 1 + e.text.count '\n')).sum ∧
    (∀ (i ei li : Nat), (parse content).sentence_map[i]? = some (ei, li) →
      ∃ (e : SubtitleEntry) (s : Str), ((parse content).entries)[ei]? = some e ∧
        (ParsedSubtitle.sentences (parse content))[i]? = some s ∧
        (splitNl e.text)[li]? = some s) := by
  rw [parse_def]
  set es := (blocksOf content).filterMap parseBlock with hes
  refine ⟨?_, ?_, ?_⟩
  · show (buildMap es).length = (ParsedSubtitle.sentences ⟨es, buildMap es⟩).length
    rw [buildMap_eq_from, sentences_eq]
    exact buildMapFrom_length 0 es
  · show (ParsedSubtitle.sentences ⟨es, buildMap es⟩).length = _
    rw [sentences_eq]
    exact flattenLines_length es
  · intro i ei li h
    rw [show (ParsedSubtitle.mk es (buildMap es)).sentence_map = buildMap es
      from rfl, buildMap_eq_from] at h
    obtain ⟨e, str, hget, _, hline, hflat⟩ := buildMapFrom_getElem es 0 i ei li h
    rw [Nat.sub_zero] at hget
    exact ⟨e, str, hget, hflat, hline⟩

/-- C9: a block is accepted only if it has at least three lines, an
integer first line and a timestamp-matching second line; a failing block
yields `none` (silently dropped), and a document whose block list contains
exactly one rejected block parses to the remaining blocks' entries, with
entry count reduced by exactly one. -/
theorem claim9_block_tolerance (content : Str) (block : Str)
    (bs1 bs2 : List Str) (b : Str) :
    ((splitNl (pyStrip block)).length < 3 → parseBlock block = none) ∧
    (∀ l0 l1 l2 rest, splitNl (pyStrip block) = l0 :: l1 :: l2 :: rest →
      (pyInt (pyStrip l0) = none → parseBlock block = none) ∧
      (tsMatch (pyStrip l1) = none → parseBlock block = none) ∧
      (∀ i st en, pyInt (pyStrip l0) = some i →
        tsMatch (pyStrip l1) = some (st, en) →
        parseBlock block = some ⟨i, st, en, pyStrip (joinNl (l2 :: rest))⟩)) ∧
    (blocksOf content = bs1 ++ b :: bs2 → parseBlock b = none →
      ((parse content).entries = (bs1 ++ bs2).filterMap parseBlock ∧
       ((∀ x ∈ bs1 ++ bs2, (parseBlock x).isSome) →
         (parse content).entries.length = bs1.length + bs2.length))) := by
  refine ⟨?_, ?_, ?_⟩
  · intro h
    unfold parseBlock
    split
    · next l0 l1 l2 rest heq =>
      rw [heq] at h
      simp only [List.length_cons] at h
      omega
    · rfl
  · intro l0 l1 l2 rest hsplit
    have hred : parseBlock block = (pyInt (pyStrip l0)).bind (fun index =>
        (tsMatch (pyStrip l1)).map (fun q =>
          ({ index := index, start_time := q.1, end_time := q.2,
             text := pyStrip (joinNl (l2 :: rest)) } : SubtitleEntry))) := by
      unfold parseBlock
      rw [hsplit]
    refine ⟨?_, ?_, ?_⟩
    · intro h
      rw [hred, h]
      rfl
    · intro h
      rw [hred, h]
      cases pyInt (pyStrip l0) <;> rfl
    · intro i st en hi hts
      rw [hred, hi, hts]
      rfl
  · intro hblocks hnone
    have hentries : (parse content).entries =
        (bs1 ++ b :: bs2).filterMap parseBlock := by
      rw [parse_def, hblocks]
    constructor
    · rw [hentries, List.filterMap_append, List.filterMap_cons, hnone,
        List.filterMap_append]
    · intro hall
      rw [hentries, List.filterMap_append, List.filterMap_cons, hnone,
        ← List.filterMap_append, filterMap_length_of_isSome _ _ hall,
        List.length_append]

/-- C10: `parse` is total and never raises: the empty string parses to the
empty document, and any input whose blocks are all rejected parses to a
well-formed document with zero entries and an empty sentence map; the
result is always a `ParsedSubtitle` whose map is built from its entries. -/
theorem claim10_total (content : Str) :
    parse ([] : Str) = ⟨[], []⟩ ∧
    ((∀ x ∈ blocksOf content, parseBlock x = none) →
      parse content = ⟨[], []⟩) ∧
    (parse content).sentence_map = buildMap (parse content).entries := by
  refine ⟨rfl, ?_, rfl⟩
  intro h
  rw [parse_def]
  have : (blocksOf content).filterMap parseBlock = [] := by
    rw [List.filterMap_eq_nil_iff]
    exact h
  rw [this]
  rfl

/-- C1 counterexample: for the parsed two-line entry `"A\nB"` (unit-map
length 2) and a single delivered translation `["X"]`, `reconstruct` emits
the entry with only the delivered translated line `X` — one line instead
of two, not the original text wholesale — refuting the claimed group-level
fallback. -/
theorem claim1_cex :
    (parse ("1\n00:00:01,000 --> 00:00:04,000\nA\nB".data)).sentence_map.length
      = 2 ∧
    reconstruct (parse ("1\n00:00:01,000 --> 00:00:04,000\nA\nB".data))
      ["X".data] = "1\n00:00:01,000 --> 00:00:04,000\nX".data ∧
    reconstruct (parse ("1\n00:00:01,000 --> 00:00:04,000\nA\nB".data))
      ["X".data] ≠ "1\n00:00:01,000 --> 00:00:04,000\nA\nB".data := by
  decide

/-- C1 amended: `reconstruct` consumes only the first `min(L, M)`
positions; an entry none of whose lines received a delivered translation
keeps its original text wholesale, while an entry with at least one
delivered line is emitted with exactly the delivered lines (possibly fewer
lines than its original text). -/
theorem claim1_amended (p : ParsedSubtitle) (ts : List Str) :
    reconstruct p ts = reconstruct p (ts.take p.sentence_map.length) ∧
    (∀ (i : Nat) (e : SubtitleEntry), (p.entries)[i]? = some e →
      entryLines p ts i = [] →
      (reconstructBlocks p ts)[i]? = some (blockOf e e.text)) ∧
    (∀ (i : Nat) (e : SubtitleEntry), (p.entries)[i]? = some e →
      entryLines p ts i ≠ [] →
      (reconstructBlocks p ts)[i]? =
        some (blockOf e (joinNl (entryLines p ts i)))) := by
  have hE : ∀ j, entryLines p (ts.take p.sentence_map.length) j =
      entryLines p ts j := by
    intro j
    unfold entryLines
    rw [zip_take_right]
  refine ⟨?_, ?_, ?_⟩
  · unfold reconstruct reconstructBlocks
    congr 1
    apply List.map_congr_left
    intro q _
    rw [hE q.1]
  · intro i e hget hempty
    unfold reconstructBlocks
    rw [List.getElem?_map, List.getElem?_enum, hget, Option.map_some',
      Option.map_some', hempty]
    rfl
  · intro i e hget hne
    unfold reconstructBlocks
    rw [List.getElem?_map, List.getElem?_enum, hget, Option.map_some',
      Option.map_some']
    have : (entryLines p ts i).isEmpty = false := by
      cases hl : entryLines p ts i with
      | nil => exact absurd hl hne
      | cons a t => rfl
    rw [this]
    rfl

/-- C1 witness: on a two-entry document with one delivered translation,
the first entry is emitted with exactly the delivered line and the second
(uncovered) entry keeps its original text. -/
theorem claim1_witness :
    (reconstructBlocks
      (parse ("1\n00:00:01,000 --> 00:00:04,000\nA\n\n2\n00:00:05,000 --> 00:00:08,000\nB".data))
      ["X".data])[1]? =
      some (blockOf ⟨2, "00:00:05,000".data, "00:00:08,000".data, "B".data⟩
        ("B".data)) ∧
    (reconstructBlocks
      (parse ("1\n00:00:01,000 --> 00:00:04,000\nA\n\n2\n00:00:05,000 --> 00:00:08,000\nB".data))
      ["X".data])[0]? =
      some (blockOf ⟨1, "00:00:01,000".data, "00:00:04,000".data, "A".data⟩
        (joinNl (entryLines
          (parse ("1\n00:00:01,000 --> 00:00:04,000\nA\n\n2\n00:00:05,000 --> 00:00:08,000\nB".data))
          ["X".data] 0))) :=
  ⟨(claim1_amended
      (parse ("1\n00:00:01,000 --> 00:00:04,000\nA\n\n2\n00:00:05,000 --> 00:00:08,000\nB".data))
      ["X".data]).2.1 1 _ (by decide) (by decide),
   (claim1_amended
      (parse ("1\n00:00:01,000 --> 00:00:04,000\nA\n\n2\n00:00:05,000 --> 00:00:08,000\nB".data))
      ["X".data]).2.2 0 _ (by decide) (by decide)⟩

/-- C6: for every unit list and window size at least 1, `create_chunks`
yields exactly the slices `units[k*size : min((k+1)*size, len)]` in order:
their concatenation reproduces the list, every window except possibly the
last has exactly `size` elements, and the empty list yields no windows. -/
theorem claim6_windowing (sentences : List Str) (chunk_size : Nat)
    (h : 1 ≤ chunk_size) :
    create_chunks sentences chunk_size =
      .ok (chunkBy (chunk_size - 1) sentences) ∧
    (chunkBy (chunk_size - 1) sentences).flatMap id = sentences ∧
    (∀ i, (chunkBy (chunk_size - 1) sentences)[i]? =
      if i * chunk_size < sentences.length then
        some ((sentences.drop (i * chunk_size)).take chunk_size)
      else none) ∧
    (∀ i, ((chunkBy (chunk_size - 1) sentences)[i + 1]?).isSome →
      ((chunkBy (chunk_size - 1) sentences)[i]?).map List.length =
        some chunk_size) ∧
    (sentences = [] → chunkBy (chunk_size - 1) sentences = []) := by
  obtain ⟨k, rfl⟩ : ∃ k, chunk_size = k + 1 :=
    ⟨chunk_size - 1, by omega⟩
  have hsub : k + 1 - 1 = k := rfl
  rw [hsub]
  refine ⟨rfl, chunkBy_flatten k sentences, ?_, ?_, ?_⟩
  · intro i
    exact chunkBy_getElem? k sentences i
  · intro i hi
    exact chunkBy_full_lengths k sentences i hi
  · rintro rfl
    rfl

/-- C6 witness: the spec's own example, `create_chunks` on five units with
window size 3 gives a full window of 3 and a final window of 2. -/
theorem claim6_witness :
    create_chunks ["A".data, "B".data, "C".data, "D".data, "E".data] 3 =
      .ok (chunkBy 2 ["A".data, "B".data, "C".data, "D".data, "E".data]) ∧
    (chunkBy 2 ["A".data, "B".data, "C".data, "D".data, "E".data]).flatMap id
      = ["A".data, "B".data, "C".data, "D".data, "E".data] ∧
    ((chunkBy 2 ["A".data, "B".data, "C".data, "D".data, "E".data])[0]?).map
      List.length = some 3 ∧
    chunkBy 2 ["A".data, "B".data, "C".data, "D".data, "E".data] =
      [["A".data, "B".data, "C".data], ["D".data, "E".data]] :=
  ⟨(claim6_windowing _ 3 (by decide)).1,
   (claim6_windowing _ 3 (by decide)).2.1,
   (claim6_windowing _ 3 (by decide)).2.2.2.1 0 (by decide),
   by decide⟩

/-! ### Concrete backends for counterexamples and witnesses -/

/-- A backend that always succeeds, echoing each unit with a `T` marker. -/
def echoBackend : Backend := fun ts =>
  { translated_texts := ts.map (fun t => 'T' :: t), success := true,
    error := none, service_used := "openai".data }

/-- A backend that always fails. -/
def downBackend : Backend := fun ts =>
  { translated_texts := List.replicate ts.length [], success := false,
    error := some ("boom".data), service_used := "openai".data }

/-- C5: the primary backend is tried first with the window's units; on its
success only the primary-call counter is incremented.  On primary failure
the fallback is invoked with exactly the same original unit list; its
success increments only the fallback-call counter, and when both fail the
window signals a terminal failure carrying both backends' reasons, with no
further retry. -/
theorem claim5_fallback (primary fallback : Backend) (chunk : List Str) :
    ((primary chunk).success = true →
      translateChunk primary fallback chunk =
        { result := .ok (primary chunk).translated_texts, openai_inc := 1,
          deepl_inc := 0, calls := [(.primaryService, chunk)] }) ∧
    ((primary chunk).success = false →
      (translateChunk primary fallback chunk).calls =
        [(.primaryService, chunk), (.fallbackService, chunk)] ∧
      ((fallback chunk).success = true →
        translateChunk primary fallback chunk =
          { result := .ok (fallback chunk).translated_texts,
            openai_inc := 0, deepl_inc := 1,
            calls := [(.primaryService, chunk), (.fallbackService, chunk)] }) ∧
      ((fallback chunk).success = false →
        translateChunk primary fallback chunk =
          { result := .error ("Translation failed: ".data ++
              optErrStr (primary chunk).error ++ " / ".data ++
              optErrStr (fallback chunk).error),
            openai_inc := 0, deepl_inc := 0,
            calls := [(.primaryService, chunk), (.fallbackService, chunk)] })) := by
  constructor
  · intro hp
    unfold translateChunk
    rw [if_pos hp]
  · intro hp
    have hnp : ¬((primary chunk).success = true) := by simp [hp]
    refine ⟨?_, ?_, ?_⟩
    · unfold translateChunk
      rw [if_neg hnp]
      by_cases hf : (fallback chunk).success = true
      · rw [if_pos hf]
      · rw [if_neg hf]
    · intro hf
      unfold translateChunk
      rw [if_neg hnp, if_pos hf]
    · intro hf
      unfold translateChunk
      rw [if_neg hnp, if_neg (by simp [hf])]

/-- C5 witness: with a failing primary and a succeeding fallback on a
concrete window, the fallback is called with the same original units and
only the fallback counter is incremented. -/
theorem claim5_witness :
    translateChunk downBackend echoBackend ["hi".data] =
      { result := .ok [('T' :: "hi".data)], openai_inc := 0, deepl_inc := 1,
        calls := [(.primaryService, ["hi".data]),
                  (.fallbackService, ["hi".data])] } :=
  ((claim5_fallback downBackend echoBackend ["hi".data]).2
    (by decide)).2.1 (by decide)

/-- Closed form of the settle-and-account loop over per-window outcomes. -/
theorem aggregate_closed_form (primary fallback : Backend)
    (chunks : List (List Str)) :
    aggregateLoop [] 0 0 (chunks.zip
      ((chunks.map (translateChunk primary fallback)).map
        (fun o => o.result))) =
      (chunks.flatMap (chunkUnits primary fallback),
       (chunks.map (chunkTransInc primary fallback)).sum,
       (chunks.map (chunkFailInc primary fallback)).sum) := by
  rw [List.map_map,
    zip_self_map chunks ((fun o => o.result) ∘ translateChunk primary fallback),
    aggregateLoop_spec]
  have h1 : (chunks.map (fun c =>
      (c, ((fun (o : ChunkOutcome) => o.result) ∘
        translateChunk primary fallback) c))).flatMap settledUnits =
      chunks.flatMap (chunkUnits primary fallback) := by
    induction chunks with
    | nil => rfl
    | cons c rest ih =>
      rw [List.map_cons, List.flatMap_cons, List.flatMap_cons, ih]
      rfl
  have h2 : (chunks.map (fun c =>
      (c, ((fun (o : ChunkOutcome) => o.result) ∘
        translateChunk primary fallback) c))).map settledTrans =
      chunks.map (chunkTransInc primary fallback) := by
    rw [List.map_map]
    rfl
  have h3 : (chunks.map (fun c =>
      (c, ((fun (o : ChunkOutcome) => o.result) ∘
        translateChunk primary fallback) c))).map settledFail =
      chunks.map (chunkFailInc primary fallback) := by
    rw [List.map_map]
    rfl
  rw [h1, h2, h3, List.nil_append]
  simp

/-- C4: after all windows settle, a failed window contributes the sentinel
`"[Translation Error]"` once per unit and its unit count to the failed
counter, a successful window contributes its translated units and their
count to the translated counter; the flat list handed to `reconstruct` is
the concatenation of per-window results in window-index order, and the
counter totals are invariant under any completion order (any permutation
of the per-window increments). -/
theorem claim4_aggregation (primary fallback : Backend)
    (chunks : List (List Str)) :
    (aggregateLoop [] 0 0 (chunks.zip
      ((chunks.map (translateChunk primary fallback)).map
        (fun o => o.result))) =
      (chunks.flatMap (chunkUnits primary fallback),
       (chunks.map (chunkTransInc primary fallback)).sum,
       (chunks.map (chunkFailInc primary fallback)).sum)) ∧
    (∀ l' : List (Nat × Nat),
      l'.Perm (chunks.map (fun c =>
        (chunkTransInc primary fallback c, chunkFailInc primary fallback c))) →
      (l'.map Prod.fst).sum =
        (chunks.map (chunkTransInc primary fallback)).sum ∧
      (l'.map Prod.snd).sum =
        (chunks.map (chunkFailInc primary fallback)).sum) ∧
    (∀ (k : Nat) (content : Str),
      (translate primary fallback (k + 1) content).translated_content =
        reconstruct (parse content)
          ((chunkBy k (parse content).sentences).flatMap
            (chunkUnits primary fallback))) := by
  refine ⟨aggregate_closed_form primary fallback chunks, ?_, ?_⟩
  · intro l' hperm
    constructor
    · rw [(hperm.map Prod.fst).sum_eq, List.map_map]
      rfl
    · rw [(hperm.map Prod.snd).sum_eq, List.map_map]
      rfl
  · intro k content
    show reconstruct (parse content)
      (aggregateLoop [] 0 0 ((chunkBy k (parse content).sentences).zip
        (((chunkBy k (parse content).sentences).map
          (translateChunk primary fallback)).map (fun o => o.result)))).1 = _
    rw [aggregate_closed_form primary fallback
      (chunkBy k (parse content).sentences)]

/-- C4 witness: on two concrete windows of sizes 1 and 2 with both
backends failing, the per-window failed increments are 1 and 2, and
summing them in the reverse (completion) order yields the same totals. -/
theorem claim4_witness :
    (([(0, 2), (0, 1)] : List (Nat × Nat)).map Prod.fst).sum =
      ([["a".data], ["b".data, "c".data]].map
        (chunkTransInc downBackend downBackend)).sum ∧
    (([(0, 2), (0, 1)] : List (Nat × Nat)).map Prod.snd).sum =
      ([["a".data], ["b".data, "c".data]].map
        (chunkFailInc downBackend downBackend)).sum :=
  (claim4_aggregation downBackend downBackend
    [["a".data], ["b".data, "c".data]]).2.1 [(0, 2), (0, 1)] (by decide)

/-- C3 counterexample: a job over content with no accepted blocks
completes with zero translated units and zero failed units, and the code
reports `success` — not `failure` as the claim's third clause (`failure`
whenever the translated-unit count is 0) would require. -/
theorem claim3_cex :
    (translate echoBackend echoBackend 3
      ("garbage".data)).stats.translated_sentences = 0 ∧
    (translate echoBackend echoBackend 3
      ("garbage".data)).stats.failed_sentences = 0 ∧
    (translate echoBackend echoBackend 3 ("garbage".data)).status =
      TranslationStatus.success ∧
    TranslationStatus.success ≠ TranslationStatus.failure := by
  decide

set_option maxHeartbeats 1600000 in
/-- C3 amended: the status is `success` iff the failed-unit count is 0
(even when the translated-unit count is also 0); `partial` when failed > 0
and translated > 0; `failure` when failed > 0 and translated = 0; and the
windowing exception path also yields `failure`. -/
theorem claim3_amended (primary fallback : Backend) (k : Nat)
    (content : Str) :
    ((translate primary fallback (k + 1) content).stats.failed_sentences = 0 →
      (translate primary fallback (k + 1) content).status =
        TranslationStatus.success) ∧
    ((translate primary fallback (k + 1) content).stats.failed_sentences > 0 →
      (translate primary fallback (k + 1) content).stats.translated_sentences
        > 0 →
      (translate primary fallback (k + 1) content).status =
        TranslationStatus.partial_) ∧
    ((translate primary fallback (k + 1) content).stats.failed_sentences > 0 →
      (translate primary fallback (k + 1) content).stats.translated_sentences
        = 0 →
      (translate primary fallback (k + 1) content).status =
        TranslationStatus.failure) ∧
    (translate primary fallback 0 content).status =
      TranslationStatus.failure := by
  have hstat : (translate primary fallback (k + 1) content).status =
      (if (translate primary fallback (k + 1) content).stats.failed_sentences
          = 0 then TranslationStatus.success
       else if (translate primary fallback
          (k + 1) content).stats.translated_sentences > 0 then
         TranslationStatus.partial_
       else TranslationStatus.failure) := rfl
  refine ⟨?_, ?_, ?_, rfl⟩
  · intro h
    rw [hstat, if_pos h]
  · intro h1 h2
    rw [hstat, if_neg (by omega), if_pos h2]
  · intro h1 h2
    rw [hstat, if_neg (by omega), if_neg (by omega)]

/-- C3 witness: a one-entry job with both backends down reports `failure`;
the same job with a working primary reports `success`. -/
theorem claim3_witness :
    (translate downBackend downBackend 3
      ("1\n00:00:01,000 --> 00:00:04,000\nHello".data)).status =
      TranslationStatus.failure ∧
    (translate echoBackend echoBackend 3
      ("1\n00:00:01,000 --> 00:00:04,000\nHello".data)).status =
      TranslationStatus.success :=
  ⟨(claim3_amended downBackend downBackend 2
      ("1\n00:00:01,000 --> 00:00:04,000\nHello".data)).2.2.1
      (by decide) (by decide),
   (claim3_amended echoBackend echoBackend 2
      ("1\n00:00:01,000 --> 00:00:04,000\nHello".data)).1 (by decide)⟩

/-- C8 counterexample: a job whose every window fails on both backends
completes with status `failure`, yet its translated content is the
non-empty reconstruction with placeholder text and its error field is
`None` — refuting the claim that a `failure` status always comes with
empty content and an error message. -/
theorem claim8_cex :
    (translate downBackend downBackend 3
      ("1\n00:00:01,000 --> 00:00:04,000\nHello".data)).status =
      TranslationStatus.failure ∧
    (translate downBackend downBackend 3
      ("1\n00:00:01,000 --> 00:00:04,000\nHello".data)).translated_content =
      "1\n00:00:01,000 --> 00:00:04,000\n[Translation Error]".data ∧
    (translate downBackend downBackend 3
      ("1\n00:00:01,000 --> 00:00:04,000\nHello".data)).translated_content
      ≠ [] ∧
    (translate downBackend downBackend 3
      ("1\n00:00:01,000 --> 00:00:04,000\nHello".data)).error = none := by
  decide

/-- C8 amended: `translate` never propagates an exception — it is a total
function into `TranslationJob`.  The one modelled job-level exception
(`range()` raising on window size 0) is caught and yields status `failure`
with empty translated content and a descriptive non-empty error message;
a job that reaches the normal path (window size ≥ 1) always returns
`error = none`, even when its status is `failure`. -/
theorem claim8_amended (primary fallback : Backend) (content : Str)
    (k : Nat) :
    (translate primary fallback 0 content).status =
      TranslationStatus.failure ∧
    (translate primary fallback 0 content).translated_content = [] ∧
    (translate primary fallback 0 content).error =
      some ("range() arg 3 must not be zero".data) ∧
    ("range() arg 3 must not be zero".data : Str) ≠ [] ∧
    (translate primary fallback (k + 1) content).error = none :=
  ⟨rfl, rfl, rfl, by decide, rfl⟩

/-- C7 witness: on a concrete two-entry document whose first entry has two
lines, the map and sentence list have equal length and map entry 1 =
`(0, 1)` locates the second line of the first entry. -/
theorem claim7_witness :
    (parse ("1\n00:00:01,000 --> 00:00:04,000\nLine A\nLine B\n\n2\n00:00:05,000 --> 00:00:08,000\nLine C".data)).sentence_map.length =
      (parse ("1\n00:00:01,000 --> 00:00:04,000\nLine A\nLine B\n\n2\n00:00:05,000 --> 00:00:08,000\nLine C".data)).sentences.length ∧
    (∃ (e : SubtitleEntry) (s : Str),
      ((parse ("1\n00:00:01,000 --> 00:00:04,000\nLine A\nLine B\n\n2\n00:00:05,000 --> 00:00:08,000\nLine C".data)).entries)[0]? = some e ∧
      (ParsedSubtitle.sentences (parse ("1\n00:00:01,000 --> 00:00:04,000\nLine A\nLine B\n\n2\n00:00:05,000 --> 00:00:08,000\nLine C".data)))[1]? = some s ∧
      (splitNl e.text)[1]? = some s) :=
  ⟨(claim7_unit_map _).1,
   (claim7_unit_map
     ("1\n00:00:01,000 --> 00:00:04,000\nLine A\nLine B\n\n2\n00:00:05,000 --> 00:00:08,000\nLine C".data)).2.2
     1 0 1 (by decide)⟩

/-- C9 witness: a two-line block is rejected; a block with a malformed
timestamp line is rejected; and the concrete three-block document whose
middle block lacks a valid timestamp parses to exactly two entries. -/
theorem claim9_witness :
    parseBlock ("ab".data) = none ∧
    parseBlock ("7\nBADTS\nxxx".data) = none ∧
    (parse ("1\n00:00:01,000 --> 00:00:04,000\nA\n\nBAD BLOCK\nno timestamp\nhere\n\n2\n00:00:05,000 --> 00:00:08,000\nB".data)).entries.length
      = 1 + 1 :=
  ⟨(claim9_block_tolerance [] ("ab".data) [] [] []).1 (by decide),
   ((claim9_block_tolerance [] ("7\nBADTS\nxxx".data) [] [] []).2.1
     ("7".data) ("BADTS".data) ("xxx".data) [] (by decide)).2.1 (by decide),
   ((claim9_block_tolerance
      ("1\n00:00:01,000 --> 00:00:04,000\nA\n\nBAD BLOCK\nno timestamp\nhere\n\n2\n00:00:05,000 --> 00:00:08,000\nB".data)
      [] ["1\n00:00:01,000 --> 00:00:04,000\nA".data]
      ["2\n00:00:05,000 --> 00:00:08,000\nB".data]
      ("BAD BLOCK\nno timestamp\nhere".data)).2.2
      (by decide) (by decide)).2 (by decide)⟩

/-- C10 witness: an input with no blank separators and no accepted blocks
parses, without any exception, to the empty document. -/
theorem claim10_witness :
    parse ("hello".data) = ⟨[], []⟩ :=
  (claim10_total ("hello".data)).2.1 (by decide)

end Srt
